import Mathlib

/-!
Verification of the onnx-ir-rust core against its specification.

This file gives a shallow embedding, in Lean 4, of the parts of the
`onnx-ir-core` crate that the specification's claims talk about:

* `MetadataStore` (src/metadata.rs): type-erased key/value store with an
  invalid-key set.  `Box<dyn Any>` is modelled by a sigma-like pair of a
  runtime type tag (`Ty`) and a value of the denoted type; `downcast`
  succeeds exactly when the tags agree, as the Rust `Any::downcast` does.
* `Shape` / `SymbolicDim` (src/shape.rs): dimensions are `i64` values or
  symbols; `size` uses `usize` saturating multiplication, modelled on `Nat`
  capped at `2^64 - 1`, with the `as usize` cast of an `i64` modelled as
  reduction modulo `2^64`.  Panicking entry points (`set_dim`,
  `set_denotation`) are modelled as `Option`-returning functions where
  `none` is a panic (fatal termination).
* `Value` use-def tracking (src/value.rs): `Rc`/`Weak` references to nodes
  are modelled as numeric ids resolved against a `World` holding the live
  nodes; a `Weak::upgrade` is a lookup, a dropped node is an absent id.
* `DoublyLinkedList` (src/linked_list.rs): the `Rc<LinkBox>` pointer
  structure is modelled as a heap (`Nat → Cell`) of link cells holding
  `prev` / `next` / `value` fields, `Rc::ptr_eq` is id equality, and the
  `.unwrap()` calls are modelled as `Option` (where `none` is a panic).

State-passing replaces interior mutability: a Rust method on `&self`
becomes a Lean function from the old state to the new state (plus the
Rust return value where there is one).
-/

/-! ## Metadata store (src/metadata.rs) -/

/-- Runtime type tags standing in for Rust `TypeId`s of the value types the
tests and examples store (`i32`-like integers, strings, integer vectors).
`Any::downcast` checks the `TypeId`; here it checks the tag. -/
inductive Ty where
  | tInt : Ty
  | tStr : Ty
  | tIntList : Ty
deriving DecidableEq

/-- The Lean type denoted by a runtime type tag. -/
def Ty.denote : Ty → Type
  | .tInt => Int
  | .tStr => String
  | .tIntList => List Int

instance (τ : Ty) : DecidableEq (Ty.denote τ) := by
  cases τ <;> · unfold Ty.denote; infer_instance

/-- A type-erased stored value: the model of `Box<dyn Any>` — a runtime tag
together with a value of the denoted type. -/
structure AnyVal where
  ty : Ty
  val : Ty.denote ty

/-- Model of `Any::downcast`: succeeds iff the runtime tag matches the
requested one. -/
def AnyVal.downcast (τ : Ty) (a : AnyVal) : Option (Ty.denote τ) :=
  match τ, a with
  | .tInt, ⟨.tInt, v⟩ => some v
  | .tStr, ⟨.tStr, v⟩ => some v
  | .tIntList, ⟨.tIntList, v⟩ => some v
  | _, _ => none

/-- `MetadataStore` (src/metadata.rs lines 31-35): a `HashMap` from keys to
type-erased values, modelled as an association list (first match wins, as
the operations below keep at most one entry per key), plus a `HashSet` of
invalid keys modelled as a duplicate-free list. -/
structure MetadataStore where
  data : List (String × AnyVal)
  invalid_keys : List String

/-- `MetadataStore::new`. -/
def MetadataStore.new : MetadataStore := ⟨[], []⟩

/-- `MetadataStore::insert` (lines 49-53): stores the value under the key
(replacing any old entry, as `HashMap::insert` does) and removes the key
from the invalid set. -/
def MetadataStore.insert (s : MetadataStore) (k : String) (τ : Ty)
    (v : Ty.denote τ) : MetadataStore :=
  { data := (k, ⟨τ, v⟩) :: s.data.filter (fun p => p.1 ≠ k),
    invalid_keys := s.invalid_keys.filter (fun k2 => k2 ≠ k) }

/-- `MetadataStore::get` (lines 58-60): lookup then downcast. -/
def MetadataStore.get (s : MetadataStore) (τ : Ty) (k : String) :
    Option (Ty.denote τ) :=
  (s.data.lookup k).bind (AnyVal.downcast τ)

/-- `MetadataStore::remove` (lines 72-76): `self.data.remove(key)?` removes
the entry whenever the key is present (the `?` returns early, leaving the
store untouched, only when the key is absent); the key is then dropped from
the invalid set, and the removed value is returned only if its runtime type
matches.  The pair is (Rust return value, store after the call). -/
def MetadataStore.remove (s : MetadataStore) (τ : Ty) (k : String) :
    Option (Ty.denote τ) × MetadataStore :=
  match s.data.lookup k with
  | none => (none, s)
  | some a =>
      (AnyVal.downcast τ a,
       { data := s.data.filter (fun p => p.1 ≠ k),
         invalid_keys := s.invalid_keys.filter (fun k2 => k2 ≠ k) })

/-- `MetadataStore::contains_key` (lines 79-81). -/
def MetadataStore.contains_key (s : MetadataStore) (k : String) : Bool :=
  (s.data.lookup k).isSome

/-- `MetadataStore::invalidate` (lines 87-89): `HashSet::insert` of the key
(a no-op when already present). -/
def MetadataStore.invalidate (s : MetadataStore) (k : String) :
    MetadataStore :=
  { s with
    invalid_keys :=
      if k ∈ s.invalid_keys then s.invalid_keys else k :: s.invalid_keys }

/-- `MetadataStore::is_valid` (lines 100-102): the key is present and not
marked invalid. -/
def MetadataStore.is_valid (s : MetadataStore) (k : String) : Bool :=
  (s.data.lookup k).isSome && !(s.invalid_keys.contains k)

/-- `MetadataStore::len` (lines 111-113). -/
def MetadataStore.len (s : MetadataStore) : Nat := s.data.length

/-- `impl Clone for MetadataStore` (lines 135-144): the data is type-erased
and cannot be cloned, so the clone is an empty data map carrying a copy of
the invalid-key set. -/
def MetadataStore.clone (s : MetadataStore) : MetadataStore :=
  { data := [], invalid_keys := s.invalid_keys }

/-! ## Shape and symbolic dimensions (src/shape.rs) -/

/-- `SymbolicDim` (src/shape.rs lines 15-21): a concrete `i64` dimension or
a symbolic one with an optional name. -/
inductive SymbolicDim where
  | int : Int → SymbolicDim
  | symbol : Option String → SymbolicDim
deriving DecidableEq

/-- `Shape` (lines 73-78): dimensions, per-dimension denotation strings,
and a frozen flag. -/
structure Shape where
  dims : List SymbolicDim
  denotations : List (Option String)
  frozen : Bool
deriving DecidableEq

/-- `Shape::new` (lines 82-90): denotations start as `None` for every
dimension; the shape starts unfrozen. -/
def Shape.new (ds : List SymbolicDim) : Shape :=
  { dims := ds, denotations := List.replicate ds.length none, frozen := false }

/-- The `usize` modulus: the Rust target is 64-bit. -/
def USIZE : Nat := 2 ^ 64

/-- The `v as usize` cast of an `i64`, i.e. reduction modulo `2^64`. -/
def intToUsize (v : Int) : Nat := (v % (USIZE : Int)).toNat

/-- `usize::saturating_mul`: the product capped at `usize::MAX`. -/
def saturatingMul (a b : Nat) : Nat := min (a * b) (USIZE - 1)

/-- The loop body of `Shape::size` (lines 116-127): multiply the
accumulator by each concrete dimension (cast to `usize`, saturating), and
return `None` on the first symbolic dimension. -/
def sizeLoop : Nat → List SymbolicDim → Option Nat
  | total, [] => some total
  | total, SymbolicDim.int v :: rest =>
      sizeLoop (saturatingMul total (intToUsize v)) rest
  | _, SymbolicDim.symbol _ :: rest =>
      let _ := rest
      none

/-- `Shape::is_scalar` (lines 132-134). -/
def Shape.is_scalar (s : Shape) : Bool := s.dims.isEmpty

/-- `Shape::size` (lines 111-129): `Some 1` for a scalar, otherwise the
saturating product of the dimensions, or `None` on a symbolic one. -/
def Shape.size (s : Shape) : Option Nat :=
  if Shape.is_scalar s then some 1 else sizeLoop 1 s.dims

/-- `Shape::freeze` (lines 137-139). -/
def Shape.freeze (s : Shape) : Shape := { s with frozen := true }

/-- `Shape::set_dim` (lines 151-154): asserts the shape is not frozen, then
writes through `self.dims[index]`, which panics when out of range.  `none`
models the panic (fatal termination). -/
def Shape.set_dim (s : Shape) (i : Nat) (d : SymbolicDim) : Option Shape :=
  if s.frozen then none
  else if i < s.dims.length then some { s with dims := s.dims.set i d }
  else none

/-- `Shape::set_denotation` (lines 166-169, named `setDenot` here): asserts
the shape is not frozen, then writes through `self.denotations[index]`,
which panics when out of range.  `none` models the panic. -/
def Shape.setDenot (s : Shape) (i : Nat) (d : Option String) : Option Shape :=
  if s.frozen then none
  else if i < s.denotations.length then
    some { s with denotations := s.denotations.set i d }
  else none

/-! ## Value use-def tracking (src/value.rs)

`Rc<RefCell<Node>>` / `Weak<RefCell<Node>>` references are modelled by
numeric node ids resolved against a `World` that holds the data of every
live node; dropping a node removes its id from the world, so a weak
reference whose id is absent is exactly a dangling `Weak`.  Values are
likewise held by id so that `replace_all_uses_with`, which mutates both a
consumer node and the replacement value, can be a function on worlds. -/

/-- `DataType` (src/enums.rs lines 50-78). -/
inductive DataType where
  | Undefined | Float | Uint8 | Int8 | Uint16 | Int16 | Int32 | Int64
  | String | Bool | Float16 | Double | Uint32 | Uint64 | Complex64
  | Complex128 | Bfloat16 | Float8E4M3Fn | Float8E4M3Fnuz | Float8E5M2
  | Float8E5M2Fnuz | Uint4 | Int4 | Float4E2M1 | Float8E8M0 | Uint2 | Int2
deriving DecidableEq

/-- `TensorType` (src/types.rs lines 23-28); the `denotation` field is
named `denot` here. -/
structure TensorType where
  elem_type : DataType
  denot : Option String
deriving DecidableEq

/-- The fields of `Node` (src/node.rs lines 23-46) that the claims about
values observe: the operator type and the ordered input value ids.  The
other fields (outputs, attributes, metadata, ...) play no role in the
use-def claims and are omitted from the node record. -/
structure NodeData where
  op_type : String
  inputs : List Nat
deriving DecidableEq

/-- The fields of `Value` (src/value.rs lines 36-55): name, optional shape
and type, the producer back-reference (`Option` of a weak node id) and the
consumer back-references as (weak node id, input index) pairs, in insertion
order. -/
structure ValueData where
  name : String
  shape : Option Shape
  type_ : Option TensorType
  producer : Option Nat
  consumers : List (Nat × Nat)
deriving DecidableEq

/-- The heap of live objects: association lists from id to data.  A node
that has been dropped is simply absent from `nodes`. -/
structure World where
  nodes : List (Nat × NodeData)
  values : List (Nat × ValueData)

/-- `Weak::upgrade` on a node reference succeeds iff the node is live. -/
def World.isLive (w : World) (nid : Nat) : Bool :=
  (w.nodes.lookup nid).isSome

/-- Resolve a node id (`Weak::upgrade` followed by `borrow`). -/
def World.getNode (w : World) (nid : Nat) : Option NodeData :=
  w.nodes.lookup nid

/-- Resolve a value id. -/
def World.getValue (w : World) (vid : Nat) : Option ValueData :=
  w.values.lookup vid

/-- Mutate the node stored under an id (a `borrow_mut` write-back). -/
def World.updNode (w : World) (nid : Nat) (f : NodeData → NodeData) : World :=
  { w with nodes := w.nodes.map (fun p => if p.1 = nid then (p.1, f p.2) else p) }

/-- Mutate the value stored under an id. -/
def World.updValue (w : World) (vid : Nat) (f : ValueData → ValueData) : World :=
  { w with values := w.values.map (fun p => if p.1 = vid then (p.1, f p.2) else p) }

/-- Dropping a node (its `Rc` count reaching zero): the id disappears from
the world, so every weak reference to it dangles. -/
def World.destroyNode (w : World) (nid : Nat) : World :=
  { w with nodes := w.nodes.filter (fun p => p.1 ≠ nid) }

/-- `Value::consumers` (src/value.rs lines 121-127): the recorded pairs
whose weak node reference still upgrades, in order. -/
def Value.consumers (w : World) (v : ValueData) : List (Nat × Nat) :=
  v.consumers.filter (fun p => World.isLive w p.1)

/-- `Value::add_consumer` (lines 133-135): push the pair. -/
def Value.add_consumer (v : ValueData) (nid idx : Nat) : ValueData :=
  { v with consumers := v.consumers ++ [(nid, idx)] }

/-- `Value::clear_consumers` (lines 149-151). -/
def Value.clear_consumers (v : ValueData) : ValueData :=
  { v with consumers := [] }

/-- `Value::num_uses` (lines 165-171): count of entries whose weak node
reference still upgrades. -/
def Value.num_uses (w : World) (v : ValueData) : Nat :=
  (v.consumers.filter (fun p => World.isLive w p.1)).length

/-- `Value::prune_dead_consumers` (lines 177-181): retain only the entries
whose weak node reference still upgrades.  The Rust function returns `()`;
the pair below is (value after the call, Rust return value). -/
def Value.prune_dead_consumers (w : World) (v : ValueData) : ValueData × Unit :=
  ({ v with consumers := v.consumers.filter (fun p => World.isLive w p.1) }, ())

/-- The number of consumer entries of `v` that reference the node `nid`
(dead or alive). -/
def Value.countRefs (v : ValueData) (nid : Nat) : Nat :=
  (v.consumers.filter (fun p => p.1 = nid)).length

/-- The body of the `for (node_rc, input_idx) in consumers` loop of
`Value::replace_all_uses_with` (src/value.rs lines 201-212): resolve the
consumer node (the loop holds an already-upgraded `Rc`, so the lookup
succeeds for every snapshotted live consumer); when the recorded index is
within the node's input list, redirect that input slot to `rid` and
register the node as a consumer of `rid` at that index. -/
def replaceStep (rid : Nat) (acc : World) (p : Nat × Nat) : World :=
  match World.getNode acc p.1 with
  | none => acc
  | some n =>
      if p.2 < n.inputs.length then
        World.updValue
          (World.updNode acc p.1
            (fun nd => { nd with inputs := nd.inputs.set p.2 rid }))
          rid (fun r => Value.add_consumer r p.1 p.2)
      else acc

/-- `Value::replace_all_uses_with` (src/value.rs lines 196-216).  The value
`vid` snapshots its live consumers, runs the loop body `replaceStep` over
them, then clears its own consumer list.  (The `none` branch for a missing
`vid` has no Rust counterpart — `self` always exists — and is dead under
the theorems' hypotheses.) -/
def Value.replace_all_uses_with (w : World) (vid rid : Nat) : World :=
  match World.getValue w vid with
  | none => w
  | some v =>
      World.updValue ((Value.consumers w v).foldl (replaceStep rid) w) vid
        Value.clear_consumers

/-! ## Doubly-linked node container (src/linked_list.rs)

Every `Rc<LinkBox<T>>` is a numeric id into a heap of link cells;
`Rc::ptr_eq` is id equality.  The `Cell`/`RefCell` fields `prev`, `next`,
`value` become the fields of a Lean `Cell`.  A `take()`/`replace(None)`
immediately followed by a `set` of the same content is a plain read and is
modelled as such; where the original content is not restored the model
performs the same sequence of writes in the same order.  The `.unwrap()`
calls are modelled by `Option`-returning operations where `none` is a
panic. -/

/-- `LinkBox<T>` (src/linked_list.rs lines 25-29): the `prev`/`next` links
and the erasable value slot of one link. -/
structure Cell (α : Type) where
  prev : Option Nat
  next : Option Nat
  value : Option α
deriving DecidableEq

/-- The all-`none` cell: the content of a heap address that has never been
allocated. -/
def Cell.empty {α : Type} : Cell α := ⟨none, none, none⟩

/-- Update one cell of a heap. -/
def hupd {α : Type} (h : Nat → Cell α) (i : Nat) (f : Cell α → Cell α) :
    Nat → Cell α :=
  fun j => if j = i then f (h j) else h j

/-- `DoublyLinkedList<T>` (lines 122-125): the sentinel id, the cached
length, plus the heap of link cells and the next id to allocate. -/
structure LL (α : Type) where
  heap : Nat → Cell α
  fresh : Nat
  root : Nat
  length : Nat

/-- `DoublyLinkedList::new` (lines 129-138): one sentinel cell whose
`prev` and `next` both point at itself. -/
def LL.new {α : Type} : LL α :=
  { heap := fun j => if j = 0 then ⟨some 0, some 0, none⟩ else Cell.empty,
    fresh := 1, root := 0, length := 0 }

/-- `LinkBox::new` (lines 33-39) plus taking a fresh `Rc`: allocate a cell
with no links and the given value; returns the new state and the id. -/
def LL.alloc {α : Type} (s : LL α) (v : α) : LL α × Nat :=
  ({ s with
     heap := hupd s.heap s.fresh (fun _ => ⟨none, none, some v⟩),
     fresh := s.fresh + 1 },
   s.fresh)

/-- `DoublyLinkedList::insert_before_link` (lines 248-258): read
`before.prev` (a `take` at once restored — `none` would make the `unwrap`
panic), then in source order set `new_link.prev`, `new_link.next`,
`prev.next` and `before.prev`, and bump the length. -/
def LL.insertBeforeLink {α : Type} (s : LL α) (before newLink : Nat) :
    Option (LL α) :=
  match (s.heap before).prev with
  | none => none
  | some p =>
      let h1 := hupd s.heap newLink
        (fun c => { c with prev := some p, next := some before })
      let h2 := hupd h1 p (fun c => { c with next := some newLink })
      let h3 := hupd h2 before (fun c => { c with prev := some newLink })
      some { s with heap := h3, length := s.length + 1 }

/-- `DoublyLinkedList::push_back` (lines 151-154): allocate, then insert
before the root. -/
def LL.push_back {α : Type} (s : LL α) (v : α) : Option (LL α) :=
  let a := LL.alloc s v
  LL.insertBeforeLink a.1 a.1.root a.2

/-- `DoublyLinkedList::push_front` (lines 157-162): allocate, read
`root.next` (take, restore — `none` would make the `unwrap` panic), then
insert before the first link. -/
def LL.push_front {α : Type} (s : LL α) (v : α) : Option (LL α) :=
  let a := LL.alloc s v
  match (a.1.heap a.1.root).next with
  | none => none
  | some first => LL.insertBeforeLink a.1 first a.2

/-- `LinkBox::erase` (lines 56-77): `none` value means already erased (no
change); otherwise take `prev` and `next` (leaving them `none`), splice the
neighbours together when both links exist, restore this link's own `prev`
and `next`, and take the value out.  Returns (Rust return value, state). -/
def LL.erase {α : Type} (s : LL α) (l : Nat) : Option α × LL α :=
  let c := s.heap l
  match c.value with
  | none => (none, s)
  | some v =>
      let h0 := hupd s.heap l (fun cc => { cc with prev := none, next := none })
      let h1 :=
        match c.prev, c.next with
        | some p, some n =>
            hupd (hupd h0 p (fun cc => { cc with next := c.next })) n
              (fun cc => { cc with prev := c.prev })
        | _, _ => h0
      let h2 := hupd h1 l
        (fun cc => { cc with prev := c.prev, next := c.next, value := none })
      (some v, { s with heap := h2 })

/-- `DoublyLinkedList::pop_back` (lines 165-179): `None` on an empty list;
otherwise read `root.prev` (`unwrap`), and when that link is unerased and
not the root itself, decrement the length and erase it; else return
`None`.  The outer `Option` is the panic monad, the inner pair is (Rust
return value, state). -/
def LL.pop_back {α : Type} (s : LL α) : Option (Option α × LL α) :=
  if s.length = 0 then some (none, s)
  else
    match (s.heap s.root).prev with
    | none => none
    | some last =>
        if (s.heap last).value.isSome && !(last == s.root) then
          let r := LL.erase s last
          some (r.1, { r.2 with length := s.length - 1 })
        else some (none, s)

/-- `DoublyLinkedList::pop_front` (lines 182-196): mirror image of
`pop_back` acting on `root.next`. -/
def LL.pop_front {α : Type} (s : LL α) : Option (Option α × LL α) :=
  if s.length = 0 then some (none, s)
  else
    match (s.heap s.root).next with
    | none => none
    | some first =>
        if (s.heap first).value.isSome && !(first == s.root) then
          let r := LL.erase s first
          some (r.1, { r.2 with length := s.length - 1 })
        else some (none, s)

/-- `DoublyLinkedList::front` (lines 199-212): `None` when empty, else the
value slot of the link after the root (`root.next.replace(None)?` merely
reads the pointer; the read of the value slot yields `None` for an erased
first link). -/
def LL.front {α : Type} (s : LL α) : Option α :=
  if s.length = 0 then none
  else
    match (s.heap s.root).next with
    | none => none
    | some first => (s.heap first).value

/-- `DoublyLinkedList::back` (lines 215-228): mirror image of `front` on
`root.prev`. -/
def LL.back {α : Type} (s : LL α) : Option α :=
  if s.length = 0 then none
  else
    match (s.heap s.root).prev with
    | none => none
    | some last => (s.heap last).value

/-- `DoublyLinkedList::iter` (lines 236-245): a fresh iterator's cursor is
`root.next` (read via take/restore). -/
def LL.iterStart {α : Type} (s : LL α) : Option Nat :=
  (s.heap s.root).next

/-- The traversal semantics of `Iter::next` (lines 283-306), run to
exhaustion: each recursive step is one iteration of the loop inside
`Iter::next` — stop on a missing cursor or on reaching the root, advance
the cursor to `current.next`, yield the value of an unerased link, silently
skip an erased one.  The collected list is everything the traversal yields.
`fuel` bounds the number of loop iterations; the Rust loop needs no bound
because following `next` reaches the root. -/
def LL.collect {α : Type} (s : LL α) : Nat → Option Nat → List α
  | 0, _ => []
  | _, none => []
  | fuel + 1, some cur =>
      if cur = s.root then []
      else
        match (s.heap cur).value with
        | some v => v :: LL.collect s fuel ((s.heap cur).next)
        | none => LL.collect s fuel ((s.heap cur).next)

/-- Mid-list insertion as the source composes it (`LinkBox::new` followed
by `insert_before_link`, exactly as in `push_back`/`push_front`): allocate
a link for `v` and splice it in before the link `t`. -/
def LL.insertBefore {α : Type} (s : LL α) (t : Nat) (v : α) : Option (LL α) :=
  let a := LL.alloc s v
  LL.insertBeforeLink a.1 t a.2

/-- The id of the link a traversal that still has the chain `B` ahead of
it is parked on: the first link of `B`, or the root once `B` is
exhausted. -/
def chainCursor {α : Type} (s : LL α) (B : List (Nat × α)) : Nat :=
  match B with
  | [] => s.root
  | x :: _ => x.1

/-! ### The list abstraction

`seg h p c L p' c'` says: starting at cursor `c` with predecessor `p`, the
heap `h` realises the links `L` (ids paired with values) as a well-formed
doubly-linked segment, leaving `p'` as the last id (`p` when `L` is empty)
and `c'` as the cursor after the segment (the content of the last link's
`next`).  `RepLL s L` closes the circle through the sentinel. -/

def seg {α : Type} (h : Nat → Cell α) :
    Nat → Nat → List (Nat × α) → Nat → Nat → Prop
  | p, c, [], p', c' => p' = p ∧ c' = c
  | p, c, (i, v) :: rest, p', c' =>
      c = i ∧ (h i).prev = some p ∧ (h i).value = some v ∧
      ∃ n, (h i).next = some n ∧ seg h i n rest p' c'

/-- The forward part of `seg`: only the `next` pointers and value slots,
which is all a forward traversal reads. -/
def fwd {α : Type} (h : Nat → Cell α) (r : Nat) :
    Nat → List (Nat × α) → Prop
  | c, [] => c = r
  | c, (i, v) :: rest =>
      c = i ∧ (h i).value = some v ∧
      ∃ n, (h i).next = some n ∧ fwd h r n rest

/-- The representation invariant: the sentinel is allocated and empty,
ids are distinct and below the allocation bound, the cached length is the
number of links, and the cells form a circular doubly-linked chain through
the sentinel. -/
def RepLL {α : Type} (s : LL α) (L : List (Nat × α)) : Prop :=
  s.root < s.fresh ∧
  (s.root :: L.map Prod.fst).Nodup ∧
  (∀ p ∈ L, p.1 < s.fresh) ∧
  s.length = L.length ∧
  (s.heap s.root).value = none ∧
  ∃ n last, (s.heap s.root).next = some n ∧ (s.heap s.root).prev = some last ∧
    seg s.heap s.root n L last s.root

/-- Executable check for `seg`, for evaluating the invariant on concrete
states. -/
def segChk {α : Type} [DecidableEq α] (h : Nat → Cell α) :
    Nat → Nat → List (Nat × α) → Nat → Nat → Bool
  | p, c, [], p', c' => p' == p && c' == c
  | p, c, (i, v) :: rest, p', c' =>
      c == i && (h i).prev == some p && (h i).value == some v &&
      match (h i).next with
      | none => false
      | some n => segChk h i n rest p' c'

/-- Executable check for `RepLL`. -/
def repChk {α : Type} [DecidableEq α] (s : LL α) (L : List (Nat × α)) : Bool :=
  decide (s.root < s.fresh) &&
  decide ((s.root :: L.map Prod.fst).Nodup) &&
  decide (∀ p ∈ L, p.1 < s.fresh) &&
  (s.length == L.length) &&
  (s.heap s.root).value == none &&
  match (s.heap s.root).next, (s.heap s.root).prev with
  | some n, some last => segChk s.heap s.root n L last s.root
  | _, _ => false

/-! ### Operation sequences for the container contract -/

/-- One container operation of the contract in spec section 4.1. -/
inductive DequeOp (α : Type) where
  | pushB : α → DequeOp α
  | pushF : α → DequeOp α
  | popB : DequeOp α
  | popF : DequeOp α

/-- Run a sequence of operations on the linked list, recording each pop's
result; `none` is a panic somewhere in the sequence. -/
def runOps {α : Type} : LL α → List (DequeOp α) → Option (LL α × List (Option α))
  | s, [] => some (s, [])
  | s, DequeOp.pushB v :: rest => (LL.push_back s v).bind (fun s' => runOps s' rest)
  | s, DequeOp.pushF v :: rest => (LL.push_front s v).bind (fun s' => runOps s' rest)
  | s, DequeOp.popB :: rest =>
      (LL.pop_back s).bind (fun r =>
        (runOps r.2 rest).map (fun q => (q.1, r.1 :: q.2)))
  | s, DequeOp.popF :: rest =>
      (LL.pop_front s).bind (fun r =>
        (runOps r.2 rest).map (fun q => (q.1, r.1 :: q.2)))

/-- The abstract deque the spec describes: a plain list, oldest-to-newest
along the back. Returns the final sequence and each pop's result. -/
def specOps {α : Type} : List α → List (DequeOp α) → List α × List (Option α)
  | m, [] => (m, [])
  | m, DequeOp.pushB v :: rest => specOps (m ++ [v]) rest
  | m, DequeOp.pushF v :: rest => specOps (v :: m) rest
  | m, DequeOp.popB :: rest =>
      let q := specOps m.dropLast rest
      (q.1, m.getLast? :: q.2)
  | m, DequeOp.popF :: rest =>
      let q := specOps m.tail rest
      (q.1, m.head? :: q.2)

/-- The number of pushes in a sequence of operations. -/
def pushCount {α : Type} : List (DequeOp α) → Nat
  | [] => 0
  | DequeOp.pushB _ :: rest => pushCount rest + 1
  | DequeOp.pushF _ :: rest => pushCount rest + 1
  | DequeOp.popB :: rest => pushCount rest
  | DequeOp.popF :: rest => pushCount rest

/-- The number of successful pops among the recorded pop results. -/
def popSuccessCount {α : Type} (rs : List (Option α)) : Nat :=
  rs.countP Option.isSome

/-! ## Helper lemmas on association lists -/

theorem lookup_filter_self {κ : Type} {β : Type} [BEq κ] [LawfulBEq κ]
    [DecidableEq κ] (l : List (κ × β)) (k : κ) :
    (l.filter (fun p => p.1 ≠ k)).lookup k = none := by
  induction l with
  | nil => rfl
  | cons x t ih =>
      obtain ⟨xk, xv⟩ := x
      by_cases h : xk = k
      · have hd : (decide (¬(xk, xv).1 = k)) = false := by simp [h]
        simp only [List.filter_cons, ne_eq, hd, Bool.false_eq_true,
          if_false]
        exact ih
      · have hd : (decide (¬(xk, xv).1 = k)) = true := by simp [h]
        have hb : (k == xk) = false := by
          simp only [beq_eq_false_iff_ne, ne_eq]
          exact fun e => h e.symm
        simp only [List.filter_cons, ne_eq, hd, if_true, List.lookup, hb]
        exact ih

theorem lookup_filter_ne {κ : Type} {β : Type} [BEq κ] [LawfulBEq κ]
    [DecidableEq κ] (l : List (κ × β)) (k j : κ) (hjk : j ≠ k) :
    (l.filter (fun p => p.1 ≠ k)).lookup j = l.lookup j := by
  induction l with
  | nil => rfl
  | cons x t ih =>
      obtain ⟨xk, xv⟩ := x
      by_cases h : xk = k
      · have hd : (decide (¬(xk, xv).1 = k)) = false := by simp [h]
        have hb : (j == xk) = false := by
          simp only [beq_eq_false_iff_ne, ne_eq]
          exact fun e => hjk (e.trans h)
        simp only [List.filter_cons, ne_eq, hd, Bool.false_eq_true, if_false,
          List.lookup, hb]
        exact ih
      · have hd : (decide (¬(xk, xv).1 = k)) = true := by simp [h]
        simp only [List.filter_cons, ne_eq, hd, if_true, List.lookup]
        cases hjx : (j == xk) with
        | true => rfl
        | false => exact ih

theorem mem_filter_ne_self {κ : Type} [DecidableEq κ] (l : List κ) (k : κ) :
    k ∉ l.filter (fun k2 => k2 ≠ k) := by
  intro hmem
  have := List.of_mem_filter hmem
  simp at this

theorem lookup_map_upd {κ : Type} {β : Type} [BEq κ] [LawfulBEq κ]
    [DecidableEq κ] (l : List (κ × β)) (i : κ) (f : β → β) (j : κ) :
    (l.map (fun p => if p.1 = i then (p.1, f p.2) else p)).lookup j
      = if j = i then (l.lookup j).map f else l.lookup j := by
  induction l with
  | nil => simp [List.lookup]
  | cons x t ih =>
      obtain ⟨xk, xv⟩ := x
      by_cases hx : xk = i
      · have hcons : (if (xk, xv).1 = i then ((xk, xv).1, f (xk, xv).2)
            else (xk, xv)) = (xk, f xv) := by simp [hx]
        by_cases hj : j = xk
        · have hb : (j == xk) = true := by simp [hj]
          rw [List.map_cons, hcons]
          simp only [List.lookup, hb]
          simp [hj.trans hx]
        · have hb : (j == xk) = false := by
            simp only [beq_eq_false_iff_ne, ne_eq]
            exact hj
          rw [List.map_cons, hcons]
          simp only [List.lookup, hb]
          exact ih
      · have hcons : (if (xk, xv).1 = i then ((xk, xv).1, f (xk, xv).2)
            else (xk, xv)) = (xk, xv) := by simp [hx]
        by_cases hj : j = xk
        · have hb : (j == xk) = true := by simp [hj]
          have hji : ¬ j = i := fun e => hx ((hj.symm.trans e))
          rw [List.map_cons, hcons]
          simp only [List.lookup, hb]
          simp [hji]
        · have hb : (j == xk) = false := by
            simp only [beq_eq_false_iff_ne, ne_eq]
            exact hj
          rw [List.map_cons, hcons]
          simp only [List.lookup, hb]
          exact ih

/-! ## Claim theorems: metadata store -/

theorem downcast_self (τ : Ty) (v : Ty.denote τ) :
    AnyVal.downcast τ ⟨τ, v⟩ = some v := by
  cases τ <;> rfl

theorem contains_filter_ne_self (l : List String) (k : String) :
    (l.filter (fun k2 => k2 ≠ k)).contains k = false := by
  have h := mem_filter_ne_self l k
  simp [h]

theorem insert_lookup_self (s : MetadataStore) (k : String) (τ : Ty)
    (v : Ty.denote τ) :
    (MetadataStore.insert s k τ v).data.lookup k = some ⟨τ, v⟩ := by
  simp [MetadataStore.insert, List.lookup]

/-- C6: for every store, key `k` and values `X`, `Y`: after `insert(k, X)`,
`is_valid(k)` is true; after a subsequent `invalidate(k)`, `is_valid(k)` is
false while `get::<T>(k)` still returns `X`; a later re-`insert(k, Y)`
restores `is_valid(k)`; and `is_valid(k)` is true only if `k` is present. -/
theorem claim6_metadata_validity (s : MetadataStore) (k : String) (τ : Ty)
    (X Y : Ty.denote τ) :
    MetadataStore.is_valid (MetadataStore.insert s k τ X) k = true ∧
    MetadataStore.is_valid
      (MetadataStore.invalidate (MetadataStore.insert s k τ X) k) k = false ∧
    MetadataStore.get
      (MetadataStore.invalidate (MetadataStore.insert s k τ X) k) τ k
      = some X ∧
    MetadataStore.is_valid
      (MetadataStore.insert
        (MetadataStore.invalidate (MetadataStore.insert s k τ X) k) k τ Y) k
      = true ∧
    (∀ (s2 : MetadataStore) (k2 : String),
      MetadataStore.is_valid s2 k2 = true →
        MetadataStore.contains_key s2 k2 = true) := by
  refine ⟨?_, ?_, ?_, ?_, ?_⟩
  · rw [MetadataStore.is_valid, insert_lookup_self]
    have hc : (MetadataStore.insert s k τ X).invalid_keys.contains k = false :=
      contains_filter_ne_self _ _
    rw [hc]
    rfl
  · rw [MetadataStore.is_valid]
    have hc : (MetadataStore.invalidate (MetadataStore.insert s k τ X)
        k).invalid_keys.contains k = true := by
      simp only [MetadataStore.invalidate]
      by_cases h : k ∈ (MetadataStore.insert s k τ X).invalid_keys
      · simp [h]
      · simp [h]
    rw [hc]
    simp
  · have hd : (MetadataStore.invalidate (MetadataStore.insert s k τ X)
        k).data = (MetadataStore.insert s k τ X).data := rfl
    rw [MetadataStore.get, hd, insert_lookup_self]
    simp [downcast_self]
  · rw [MetadataStore.is_valid, insert_lookup_self]
    have hc : (MetadataStore.insert
        (MetadataStore.invalidate (MetadataStore.insert s k τ X) k) k τ
        Y).invalid_keys.contains k = false := contains_filter_ne_self _ _
    rw [hc]
    rfl
  · intro s2 k2 h
    simp only [MetadataStore.is_valid, Bool.and_eq_true] at h
    exact h.1

/-- C7 counterexample: storing an integer under "x" and then calling
`remove::<String>("x")` (mismatched type) returns nothing yet still removes
the entry, so `remove` does not remove "only if the stored value's runtime
type matches". -/
theorem claim7_counterexample :
    (MetadataStore.remove
      (MetadataStore.insert MetadataStore.new "x" Ty.tInt (42 : Int))
      Ty.tStr "x").1 = none ∧
    MetadataStore.contains_key
      (MetadataStore.remove
        (MetadataStore.insert MetadataStore.new "x" Ty.tInt (42 : Int))
        Ty.tStr "x").2 "x" = false ∧
    MetadataStore.contains_key
      (MetadataStore.insert MetadataStore.new "x" Ty.tInt (42 : Int)) "x"
      = true := by
  refine ⟨by decide, by decide, by decide⟩

/-- C7 as amended: `remove::<T>(k)` removes the entry whenever the key is
present (regardless of the stored type, returning the value only on a type
match — the returned option always coincides with `get::<T>(k)`), leaves
the store untouched when the key is absent; and `get::<T>(k)` returns a
value only when the key is present with a value of runtime type `T`,
otherwise nothing. -/
theorem claim7_remove_get (s : MetadataStore) (k : String) (τ : Ty) :
    (MetadataStore.remove s τ k).1 = MetadataStore.get s τ k ∧
    MetadataStore.contains_key (MetadataStore.remove s τ k).2 k = false ∧
    (MetadataStore.contains_key s k = false →
      (MetadataStore.remove s τ k).2 = s) ∧
    (∀ v, MetadataStore.get s τ k = some v →
      s.data.lookup k = some ⟨τ, v⟩) := by
  refine ⟨?_, ?_, ?_, ?_⟩
  · cases h : s.data.lookup k with
    | none => simp [MetadataStore.remove, MetadataStore.get, h]
    | some a => simp [MetadataStore.remove, MetadataStore.get, h]
  · cases h : s.data.lookup k with
    | none => simp [MetadataStore.remove, MetadataStore.contains_key, h]
    | some a =>
        have hl : List.lookup k
            (s.data.filter (fun p => p.1 ≠ k)) = none :=
          lookup_filter_self _ _
        simp only [MetadataStore.remove, h, MetadataStore.contains_key]
        rw [hl]
        rfl
  · intro hc
    cases h : s.data.lookup k with
    | none => simp [MetadataStore.remove, h]
    | some a => simp [MetadataStore.contains_key, h] at hc
  · intro v hv
    simp only [MetadataStore.get] at hv
    cases h : s.data.lookup k with
    | none => simp [h] at hv
    | some a =>
        rw [h] at hv
        obtain ⟨σ, w⟩ := a
        cases σ <;> cases τ <;> cases hv <;> rfl

/-- C10: cloning a metadata store copies no key/value data — the clone has
length 0, every `get` is `none` and every `is_valid` is false — while the
invalid-key set is preserved exactly. -/
theorem claim10_clone (s : MetadataStore) :
    MetadataStore.len (MetadataStore.clone s) = 0 ∧
    (∀ (τ : Ty) (k : String),
      MetadataStore.get (MetadataStore.clone s) τ k = none) ∧
    (∀ k, MetadataStore.is_valid (MetadataStore.clone s) k = false) ∧
    (MetadataStore.clone s).invalid_keys = s.invalid_keys := by
  exact ⟨rfl, fun τ k => rfl, fun k => rfl, rfl⟩

/-! ## Claim theorems: shape -/

theorem toNat_mul_of_nonneg (a b : Int) (ha : 0 ≤ a) (hb : 0 ≤ b) :
    (a * b).toNat = a.toNat * b.toNat := by
  have h1 : ((a * b).toNat : Int) = a * b := Int.toNat_of_nonneg (mul_nonneg ha hb)
  have h2 : ((a.toNat * b.toNat : Nat) : Int) = a * b := by
    push_cast
    rw [Int.toNat_of_nonneg ha, Int.toNat_of_nonneg hb]
  exact Int.ofNat_inj.mp (h1.trans h2.symm)

theorem map_toNat_prod (ds : List Int) (h : ∀ v ∈ ds, 0 ≤ v) :
    (ds.map Int.toNat).prod = ds.prod.toNat := by
  induction ds with
  | nil => rfl
  | cons v rest ih =>
      have hv := h v (List.mem_cons_self _ _)
      have hr : ∀ x ∈ rest, (0 : Int) ≤ x :=
        fun x hx => h x (List.mem_cons_of_mem _ hx)
      simp only [List.map_cons, List.prod_cons]
      rw [ih hr, toNat_mul_of_nonneg v rest.prod hv (List.prod_nonneg hr)]

theorem sizeLoop_symbol (l : List SymbolicDim) (nm : Option String) :
    ∀ t, SymbolicDim.symbol nm ∈ l → sizeLoop t l = none := by
  induction l with
  | nil => intro t h; cases h
  | cons d rest ih =>
      intro t h
      cases d with
      | int v =>
          have : SymbolicDim.symbol nm ∈ rest := by
            rcases List.mem_cons.mp h with h1 | h2
            · cases h1
            · exact h2
          simp only [sizeLoop]
          exact ih _ this
      | symbol nm2 => rfl

theorem sizeLoop_exact (ds : List Int) :
    ∀ t : Nat, t ≤ USIZE - 1 →
      (∀ v ∈ ds, 0 ≤ v ∧ v < (USIZE : Int)) →
      t * (ds.map Int.toNat).prod < USIZE →
      sizeLoop t (ds.map SymbolicDim.int)
        = some (t * (ds.map Int.toNat).prod) := by
  induction ds with
  | nil => intro t _ _ _; simp [sizeLoop]
  | cons v rest ih =>
      intro t ht hvs hp
      have hv := hvs v (List.mem_cons_self _ _)
      have hrest : ∀ x ∈ rest, (0 : Int) ≤ x ∧ x < (USIZE : Int) :=
        fun x hx => hvs x (List.mem_cons_of_mem _ hx)
      have hcast : intToUsize v = v.toNat := by
        unfold intToUsize
        rw [Int.emod_eq_of_lt hv.1 hv.2]
      simp only [List.map_cons, List.prod_cons] at hp
      simp only [List.map_cons, sizeLoop, hcast, List.prod_cons]
      rw [← mul_assoc] at hp ⊢
      by_cases hs : t * v.toNat < USIZE
      · have hle : t * v.toNat ≤ USIZE - 1 := Nat.le_sub_one_of_lt hs
        have hmin : saturatingMul t v.toNat = t * v.toNat := by
          rw [saturatingMul, Nat.min_eq_left hle]
        rw [hmin]
        exact ih (t * v.toNat) hle hrest hp
      · have hge : USIZE ≤ t * v.toNat := Nat.le_of_not_lt hs
        have hr0 : (rest.map Int.toNat).prod = 0 := by
          by_contra h0
          have h1 : 1 ≤ (rest.map Int.toNat).prod := Nat.one_le_iff_ne_zero.mpr h0
          have h2 : t * v.toNat ≤ t * v.toNat * (rest.map Int.toNat).prod :=
            Nat.le_mul_of_pos_right _ h1
          exact hs (lt_of_le_of_lt h2 hp)
        have hmin : saturatingMul t v.toNat = USIZE - 1 := by
          rw [saturatingMul,
            Nat.min_eq_right (Nat.le_trans (Nat.sub_le USIZE 1) hge)]
        rw [hmin, hr0, Nat.mul_zero]
        have hres := ih (USIZE - 1) (le_refl _) hrest
          (by rw [hr0, Nat.mul_zero]; exact Nat.pos_of_ne_zero (by simp [USIZE]))
        rw [hr0, Nat.mul_zero] at hres
        exact hres

/-- C8 counterexample: for the all-concrete shape `[2^32, 2^32]` the code
computes the `usize`-saturating product `2^64 - 1`, not the mathematical
product `2^64`, so `size()` does not always return "the product of its
dimensions" when all dimensions are concrete. -/
theorem claim8_counterexample :
    Shape.size (Shape.new [SymbolicDim.int (2 ^ 32), SymbolicDim.int (2 ^ 32)])
        = some (2 ^ 64 - 1) ∧
    Shape.size (Shape.new [SymbolicDim.int (2 ^ 32), SymbolicDim.int (2 ^ 32)])
        ≠ some (2 ^ 32 * 2 ^ 32) := by
  refine ⟨by decide, by decide⟩

/-- C8 as amended: `size()` returns `Some 1` for a rank-0 shape, `None`
whenever any dimension is symbolic, and the product of the dimensions
whenever every dimension is a concrete nonnegative integer below `2^64`
whose product is below `2^64` (beyond that bound the `usize` computation
saturates, as the counterexample shows). -/
theorem claim8_size (s : Shape) (ds : List Int)
    (hdims : s.dims = ds.map SymbolicDim.int)
    (hrange : ∀ v ∈ ds, 0 ≤ v ∧ v < (USIZE : Int))
    (hprod : ds.prod < (USIZE : Int)) :
    Shape.size s = some ds.prod.toNat ∧
    (∀ s2 : Shape, s2.dims = [] → Shape.size s2 = some 1) ∧
    (∀ (s2 : Shape) (nm : Option String),
      SymbolicDim.symbol nm ∈ s2.dims → Shape.size s2 = none) := by
  refine ⟨?_, ?_, ?_⟩
  · have hnn : ∀ v ∈ ds, (0 : Int) ≤ v := fun v hv => (hrange v hv).1
    have hprodN : (ds.map Int.toNat).prod < USIZE := by
      rw [map_toNat_prod ds hnn]
      have h0 : (0 : Int) ≤ ds.prod := List.prod_nonneg hnn
      have : ((ds.prod.toNat : Nat) : Int) < (USIZE : Int) := by
        rw [Int.toNat_of_nonneg h0]
        exact hprod
      exact_mod_cast this
    cases ds with
    | nil =>
        have : s.dims = [] := by simpa using hdims
        simp [Shape.size, Shape.is_scalar, this]
    | cons d rest =>
        have hne : ¬ s.dims.isEmpty = true := by
          rw [hdims]
          simp
        rw [Shape.size, Shape.is_scalar]
        rw [if_neg hne, hdims]
        have := sizeLoop_exact (d :: rest) 1 (by simp [USIZE]) hrange
          (by simpa using hprodN)
        rw [this]
        rw [Nat.one_mul, map_toNat_prod _ (fun v hv => (hrange v hv).1)]
  · intro s2 h2
    simp [Shape.size, Shape.is_scalar, h2]
  · intro s2 nm hmem
    have hne : ¬ s2.dims.isEmpty = true := by
      cases hd : s2.dims with
      | nil => rw [hd] at hmem; cases hmem
      | cons a b => simp [hd]
    rw [Shape.size, Shape.is_scalar, if_neg hne]
    exact sizeLoop_symbol _ nm 1 hmem

/-- Witness for C8: the spec's own example `Shape([2,3,4]).size() == Some 24`
satisfies the amended theorem's hypotheses. -/
theorem claim8_size_witness :
    Shape.size (Shape.new [SymbolicDim.int 2, SymbolicDim.int 3,
      SymbolicDim.int 4]) = some (([2, 3, 4] : List Int).prod.toNat) ∧
    (∀ s2 : Shape, s2.dims = [] → Shape.size s2 = some 1) ∧
    (∀ (s2 : Shape) (nm : Option String),
      SymbolicDim.symbol nm ∈ s2.dims → Shape.size s2 = none) :=
  claim8_size (Shape.new [SymbolicDim.int 2, SymbolicDim.int 3,
      SymbolicDim.int 4]) [2, 3, 4] (by decide) (by decide) (by decide)

/-- C9: freezing a shape makes `set_dim`/`set_denotation` fail (the model's
`none` is the Rust panic, a fatal precondition violation), an out-of-range
index likewise fails on any shape, and no successful call through these
entry points ever changes the frozen flag, so a frozen shape stays frozen
— mutation through them is permanently impossible. -/
theorem claim9_freeze_fatal (s : Shape) (i : Nat) (d : SymbolicDim)
    (dn : Option String) :
    (Shape.freeze s).frozen = true ∧
    Shape.set_dim (Shape.freeze s) i d = none ∧
    Shape.setDenot (Shape.freeze s) i dn = none ∧
    (s.frozen = true → Shape.set_dim s i d = none ∧
      Shape.setDenot s i dn = none) ∧
    (s.dims.length ≤ i → Shape.set_dim s i d = none) ∧
    (s.denotations.length ≤ i → Shape.setDenot s i dn = none) ∧
    (∀ s2, Shape.set_dim s i d = some s2 → s2.frozen = s.frozen) ∧
    (∀ s2, Shape.setDenot s i dn = some s2 → s2.frozen = s.frozen) := by
  refine ⟨rfl, rfl, rfl, ?_, ?_, ?_, ?_, ?_⟩
  · intro hf
    constructor
    · simp [Shape.set_dim, hf]
    · simp [Shape.setDenot, hf]
  · intro hlen
    simp [Shape.set_dim, Nat.not_lt_of_le hlen]
  · intro hlen
    simp [Shape.setDenot, Nat.not_lt_of_le hlen]
  · intro s2 h2
    by_cases hf : s.frozen
    · simp [Shape.set_dim, hf] at h2
    · by_cases hi : i < s.dims.length
      · rw [Shape.set_dim, if_neg hf, if_pos hi, Option.some_inj] at h2
        rw [← h2]
      · simp [Shape.set_dim, hf, hi] at h2
  · intro s2 h2
    by_cases hf : s.frozen
    · simp [Shape.setDenot, hf] at h2
    · by_cases hi : i < s.denotations.length
      · rw [Shape.setDenot, if_neg hf, if_pos hi, Option.some_inj] at h2
        rw [← h2]
      · simp [Shape.setDenot, hf, hi] at h2

/-! ## Claim theorems: value use-def tracking -/

theorem isLive_eq (w : World) (n : Nat) :
    World.isLive w n = (World.getNode w n).isSome := rfl

theorem getNode_updValue (w : World) (i : Nat) (f : ValueData → ValueData)
    (j : Nat) : World.getNode (World.updValue w i f) j = World.getNode w j :=
  rfl

theorem getValue_updNode (w : World) (i : Nat) (f : NodeData → NodeData)
    (j : Nat) : World.getValue (World.updNode w i f) j = World.getValue w j :=
  rfl

theorem getNode_updNode (w : World) (i : Nat) (f : NodeData → NodeData)
    (j : Nat) :
    World.getNode (World.updNode w i f) j
      = if j = i then (World.getNode w j).map f else World.getNode w j :=
  lookup_map_upd w.nodes i f j

theorem getValue_updValue (w : World) (i : Nat) (f : ValueData → ValueData)
    (j : Nat) :
    World.getValue (World.updValue w i f) j
      = if j = i then (World.getValue w j).map f else World.getValue w j :=
  lookup_map_upd w.values i f j

theorem isLive_updNode (w : World) (i : Nat) (f : NodeData → NodeData)
    (j : Nat) : World.isLive (World.updNode w i f) j = World.isLive w j := by
  rw [isLive_eq, isLive_eq, getNode_updNode]
  by_cases h : j = i
  · rw [if_pos h]
    cases World.getNode w j <;> rfl
  · rw [if_neg h]

theorem isLive_updValue (w : World) (i : Nat) (f : ValueData → ValueData)
    (j : Nat) : World.isLive (World.updValue w i f) j = World.isLive w j :=
  rfl

theorem isLive_destroy (w : World) (n m : Nat) :
    World.isLive (World.destroyNode w n) m
      = if m = n then false else World.isLive w m := by
  by_cases h : m = n
  · rw [if_pos h, h]
    show (List.lookup n (w.nodes.filter (fun p => p.1 ≠ n))).isSome = false
    rw [lookup_filter_self]
    rfl
  · rw [if_neg h]
    show (List.lookup m (w.nodes.filter (fun p => p.1 ≠ n))).isSome
      = World.isLive w m
    rw [lookup_filter_ne w.nodes n m h]
    rfl

theorem destroy_filter_count (w : World) (n : Nat)
    (hlive : World.isLive w n = true) (cs : List (Nat × Nat)) :
    (cs.filter (fun p => World.isLive (World.destroyNode w n) p.1)).length
      + (cs.filter (fun p => p.1 = n)).length
      = (cs.filter (fun p => World.isLive w p.1)).length := by
  induction cs with
  | nil => rfl
  | cons p t ih =>
      by_cases h : p.1 = n
      · have h1 : World.isLive (World.destroyNode w n) p.1 = false := by
          rw [isLive_destroy, if_pos h]
        have h2 : World.isLive w p.1 = true := by rw [h]; exact hlive
        have hd : (decide (p.1 = n)) = true := by simp [h]
        simp only [List.filter_cons]
        rw [h1, h2, hd]
        simp
        omega
      · have h1 : World.isLive (World.destroyNode w n) p.1
            = World.isLive w p.1 := by
          rw [isLive_destroy, if_neg h]
        have hd : (decide (p.1 = n)) = false := by simp [h]
        simp only [List.filter_cons, h1, hd]
        cases hl : World.isLive w p.1 <;> simp [hl] <;> omega

/-- C3: adding a consumer entry for a live node `n` raises `num_uses` by
exactly one and makes `consumers()` contain `(n, i)`; destroying `n`
lowers `num_uses` by one for each entry referencing `n` with no explicit
removal (stated additively: the new count plus the number of entries
referencing `n` equals the old count). -/
theorem claim3_num_uses (w : World) (v : ValueData) (n i : Nat)
    (hlive : World.isLive w n = true) :
    Value.num_uses w (Value.add_consumer v n i) = Value.num_uses w v + 1 ∧
    (n, i) ∈ Value.consumers w (Value.add_consumer v n i) ∧
    Value.num_uses (World.destroyNode w n) v + Value.countRefs v n
      = Value.num_uses w v := by
  refine ⟨?_, ?_, ?_⟩
  · rw [Value.num_uses, Value.num_uses, Value.add_consumer]
    rw [List.filter_append, List.length_append]
    simp [hlive]
  · rw [Value.consumers, Value.add_consumer]
    rw [List.mem_filter]
    constructor
    · exact List.mem_append_right _ (List.mem_singleton.mpr rfl)
    · simpa using hlive
  · exact destroy_filter_count w n hlive v.consumers

/-- Witness for C3 at a concrete world with one live node. -/
theorem claim3_witness :
    World.isLive ⟨[(0, ⟨"Add", [5]⟩)], []⟩ 0 = true ∧
    (Value.num_uses ⟨[(0, ⟨"Add", [5]⟩)], []⟩
        (Value.add_consumer ⟨"x", none, none, none, [(0, 7)]⟩ 0 2)
      = Value.num_uses ⟨[(0, ⟨"Add", [5]⟩)], []⟩
          (⟨"x", none, none, none, [(0, 7)]⟩ : ValueData) + 1 ∧
    (0, 2) ∈ Value.consumers ⟨[(0, ⟨"Add", [5]⟩)], []⟩
        (Value.add_consumer ⟨"x", none, none, none, [(0, 7)]⟩ 0 2) ∧
    Value.num_uses (World.destroyNode ⟨[(0, ⟨"Add", [5]⟩)], []⟩ 0)
        (⟨"x", none, none, none, [(0, 7)]⟩ : ValueData)
      + Value.countRefs (⟨"x", none, none, none, [(0, 7)]⟩ : ValueData) 0
      = Value.num_uses ⟨[(0, ⟨"Add", [5]⟩)], []⟩
          (⟨"x", none, none, none, [(0, 7)]⟩ : ValueData)) :=
  ⟨by decide,
   claim3_num_uses ⟨[(0, ⟨"Add", [5]⟩)], []⟩
     ⟨"x", none, none, none, [(0, 7)]⟩ 0 2 (by decide)⟩

/-- C5 counterexample: `prune_dead_consumers` is declared `fn(&self)` in
the source and returns the unit value, not a count.  Two runs that remove
different numbers of dead entries (two and zero) return the same value, so
the returned value cannot be "the count of entries it removed". -/
theorem claim5_counterexample :
    (Value.prune_dead_consumers ⟨[], []⟩
        ⟨"x", none, none, none, [(0, 0), (1, 0)]⟩).1.consumers = [] ∧
    ((⟨"x", none, none, none, [(0, 0), (1, 0)]⟩ : ValueData).consumers.length
      - (Value.prune_dead_consumers ⟨[], []⟩
          ⟨"x", none, none, none, [(0, 0), (1, 0)]⟩).1.consumers.length) = 2 ∧
    ((⟨"y", none, none, none, []⟩ : ValueData).consumers.length
      - (Value.prune_dead_consumers ⟨[], []⟩
          ⟨"y", none, none, none, []⟩).1.consumers.length) = 0 ∧
    (Value.prune_dead_consumers ⟨[], []⟩
        ⟨"x", none, none, none, [(0, 0), (1, 0)]⟩).2
      = (Value.prune_dead_consumers ⟨[], []⟩
          ⟨"y", none, none, none, []⟩).2 := by
  refine ⟨by decide, by decide, by decide, rfl⟩

/-- C5 as amended: `prune_dead_consumers()` physically removes exactly the
consumer entries whose node no longer resolves (keeping every live entry,
preserving `num_uses` and all other fields) and returns unit — it does not
report the removed count. -/
theorem claim5_prune (w : World) (v : ValueData) :
    (Value.prune_dead_consumers w v).1.consumers.Sublist v.consumers ∧
    (∀ p, p ∈ (Value.prune_dead_consumers w v).1.consumers ↔
      p ∈ v.consumers ∧ World.isLive w p.1 = true) ∧
    (Value.prune_dead_consumers w v).1.consumers.length
      = Value.num_uses w v ∧
    Value.num_uses w (Value.prune_dead_consumers w v).1
      = Value.num_uses w v ∧
    (Value.prune_dead_consumers w v).1.name = v.name ∧
    (Value.prune_dead_consumers w v).1.producer = v.producer ∧
    (Value.prune_dead_consumers w v).2 = () := by
  refine ⟨List.filter_sublist _, ?_, rfl, ?_, rfl, rfl, rfl⟩
  · intro p
    rw [Value.prune_dead_consumers]
    simp [List.mem_filter]
  · rw [Value.num_uses, Value.prune_dead_consumers]
    simp only [List.filter_filter]
    rw [Value.num_uses]
    congr 1
    apply List.filter_congr
    intro p _
    cases World.isLive w p.1 <;> rfl

theorem replaceStep_eq (rid : Nat) (acc : World) (i j : Nat) (nd : NodeData)
    (hnd : World.getNode acc i = some nd) (hlt : j < nd.inputs.length) :
    replaceStep rid acc (i, j)
      = World.updValue
          (World.updNode acc i
            (fun ndd => { ndd with inputs := ndd.inputs.set j rid }))
          rid (fun rr => Value.add_consumer rr i j) := by
  simp only [replaceStep, hnd]
  rw [if_pos hlt]

/-- C1: on a value `v` whose recorded consumers are exactly
`[(n1,0), (n1,1), (n2,0)]` with `n1`, `n2` live and the recorded positions
within the nodes' input lists, `replace_all_uses_with` onto a distinct,
so-far-unused value `v2` rewrites each consumer node's input slot at the
recorded position to `v2`, registers those nodes as consumers of `v2` at
those positions, and clears `v`'s own consumer list: afterwards
`v.num_uses() = 0`, `v2.num_uses() = 3`, `n1`'s inputs at positions 0 and 1
and `n2`'s input at position 0 all reference `v2`, and neither `v2`'s
shape, type or name nor either value's producer is altered. -/
theorem claim1_replace_all_uses (w : World) (vid rid n1 n2 : Nat)
    (v r : ValueData) (nd1 nd2 : NodeData)
    (hv : World.getValue w vid = some v)
    (hcons : v.consumers = [(n1, 0), (n1, 1), (n2, 0)])
    (hr : World.getValue w rid = some r)
    (hrc : r.consumers = [])
    (hn1 : World.getNode w n1 = some nd1)
    (hn2 : World.getNode w n2 = some nd2)
    (hlen1 : 2 ≤ nd1.inputs.length)
    (hlen2 : 1 ≤ nd2.inputs.length)
    (hvr : vid ≠ rid)
    (hn12 : n1 ≠ n2) :
    World.getValue (Value.replace_all_uses_with w vid rid) vid
        = some (Value.clear_consumers v) ∧
    Value.num_uses (Value.replace_all_uses_with w vid rid)
        (Value.clear_consumers v) = 0 ∧
    World.getValue (Value.replace_all_uses_with w vid rid) rid
        = some { r with consumers := [(n1, 0), (n1, 1), (n2, 0)] } ∧
    Value.num_uses (Value.replace_all_uses_with w vid rid)
        { r with consumers := [(n1, 0), (n1, 1), (n2, 0)] } = 3 ∧
    World.getNode (Value.replace_all_uses_with w vid rid) n1
        = some { nd1 with inputs := (nd1.inputs.set 0 rid).set 1 rid } ∧
    ((nd1.inputs.set 0 rid).set 1 rid)[0]? = some rid ∧
    ((nd1.inputs.set 0 rid).set 1 rid)[1]? = some rid ∧
    World.getNode (Value.replace_all_uses_with w vid rid) n2
        = some { nd2 with inputs := nd2.inputs.set 0 rid } ∧
    (nd2.inputs.set 0 rid)[0]? = some rid ∧
    ({ r with consumers := [(n1, 0), (n1, 1), (n2, 0)] } : ValueData).name
        = r.name ∧
    ({ r with consumers := [(n1, 0), (n1, 1), (n2, 0)] } : ValueData).shape
        = r.shape ∧
    ({ r with consumers := [(n1, 0), (n1, 1), (n2, 0)] } : ValueData).type_
        = r.type_ ∧
    ({ r with consumers := [(n1, 0), (n1, 1), (n2, 0)] } : ValueData).producer
        = r.producer ∧
    (Value.clear_consumers v).producer = v.producer := by
  have hrv : rid ≠ vid := fun e => hvr e.symm
  have hn21 : n2 ≠ n1 := fun e => hn12 e.symm
  have hlive1 : World.isLive w n1 = true := by rw [isLive_eq, hn1]; rfl
  have hlive2 : World.isLive w n2 = true := by rw [isLive_eq, hn2]; rfl
  have hcs : Value.consumers w v = [(n1, 0), (n1, 1), (n2, 0)] := by
    rw [Value.consumers, hcons]
    simp [List.filter_cons, hlive1, hlive2]
  have hn1W1 : World.getNode (World.updValue (World.updNode w n1
      (fun nd => { nd with inputs := nd.inputs.set 0 rid })) rid
      (fun rr => Value.add_consumer rr n1 0)) n1
      = some { nd1 with inputs := nd1.inputs.set 0 rid } := by
    rw [getNode_updValue, getNode_updNode, if_pos rfl, hn1]
    rfl
  have hn2W2 : World.getNode (World.updValue (World.updNode (World.updValue (World.updNode w n1
      (fun nd => { nd with inputs := nd.inputs.set 0 rid })) rid
      (fun rr => Value.add_consumer rr n1 0)) n1
      (fun nd => { nd with inputs := nd.inputs.set 1 rid })) rid
      (fun rr => Value.add_consumer rr n1 1)) n2 = some nd2 := by
    rw [getNode_updValue, getNode_updNode, if_neg hn21,
      getNode_updValue, getNode_updNode, if_neg hn21]
    exact hn2
  have hstep1 : replaceStep rid w (n1, 0) = (World.updValue (World.updNode w n1
      (fun nd => { nd with inputs := nd.inputs.set 0 rid })) rid
      (fun rr => Value.add_consumer rr n1 0)) :=
    replaceStep_eq rid w n1 0 nd1 hn1 (by omega)
  have hstep2 : replaceStep rid (World.updValue (World.updNode w n1
      (fun nd => { nd with inputs := nd.inputs.set 0 rid })) rid
      (fun rr => Value.add_consumer rr n1 0)) (n1, 1) = (World.updValue (World.updNode (World.updValue (World.updNode w n1
      (fun nd => { nd with inputs := nd.inputs.set 0 rid })) rid
      (fun rr => Value.add_consumer rr n1 0)) n1
      (fun nd => { nd with inputs := nd.inputs.set 1 rid })) rid
      (fun rr => Value.add_consumer rr n1 1)) :=
    replaceStep_eq rid (World.updValue (World.updNode w n1
      (fun nd => { nd with inputs := nd.inputs.set 0 rid })) rid
      (fun rr => Value.add_consumer rr n1 0)) n1 1
      { nd1 with inputs := nd1.inputs.set 0 rid } hn1W1
      (by simp only [List.length_set]; omega)
  have hstep3 : replaceStep rid (World.updValue (World.updNode (World.updValue (World.updNode w n1
      (fun nd => { nd with inputs := nd.inputs.set 0 rid })) rid
      (fun rr => Value.add_consumer rr n1 0)) n1
      (fun nd => { nd with inputs := nd.inputs.set 1 rid })) rid
      (fun rr => Value.add_consumer rr n1 1)) (n2, 0) = (World.updValue (World.updNode (World.updValue (World.updNode (World.updValue (World.updNode w n1
      (fun nd => { nd with inputs := nd.inputs.set 0 rid })) rid
      (fun rr => Value.add_consumer rr n1 0)) n1
      (fun nd => { nd with inputs := nd.inputs.set 1 rid })) rid
      (fun rr => Value.add_consumer rr n1 1)) n2
      (fun nd => { nd with inputs := nd.inputs.set 0 rid })) rid
      (fun rr => Value.add_consumer rr n2 0)) :=
    replaceStep_eq rid (World.updValue (World.updNode (World.updValue (World.updNode w n1
      (fun nd => { nd with inputs := nd.inputs.set 0 rid })) rid
      (fun rr => Value.add_consumer rr n1 0)) n1
      (fun nd => { nd with inputs := nd.inputs.set 1 rid })) rid
      (fun rr => Value.add_consumer rr n1 1)) n2 0 nd2 hn2W2 (by omega)
  have hmain : Value.replace_all_uses_with w vid rid
      = World.updValue (World.updValue (World.updNode (World.updValue (World.updNode (World.updValue (World.updNode w n1
      (fun nd => { nd with inputs := nd.inputs.set 0 rid })) rid
      (fun rr => Value.add_consumer rr n1 0)) n1
      (fun nd => { nd with inputs := nd.inputs.set 1 rid })) rid
      (fun rr => Value.add_consumer rr n1 1)) n2
      (fun nd => { nd with inputs := nd.inputs.set 0 rid })) rid
      (fun rr => Value.add_consumer rr n2 0)) vid Value.clear_consumers := by
    simp only [Value.replace_all_uses_with, hv, hcs]
    rw [List.foldl_cons, hstep1, List.foldl_cons, hstep2, List.foldl_cons,
      hstep3, List.foldl_nil]
  have hlivePres : ∀ m, World.isLive (Value.replace_all_uses_with w vid rid) m
      = World.isLive w m := by
    intro m
    rw [hmain]
    simp only [isLive_updValue, isLive_updNode]
  have hValVid : World.getValue (Value.replace_all_uses_with w vid rid) vid
      = some (Value.clear_consumers v) := by
    rw [hmain, getValue_updValue, if_pos rfl,
      getValue_updValue, if_neg hvr, getValue_updNode,
      getValue_updValue, if_neg hvr, getValue_updNode,
      getValue_updValue, if_neg hvr, getValue_updNode, hv]
    rfl
  have hValRid : World.getValue (Value.replace_all_uses_with w vid rid) rid
      = some { r with consumers := [(n1, 0), (n1, 1), (n2, 0)] } := by
    rw [hmain, getValue_updValue, if_neg hrv,
      getValue_updValue, if_pos rfl, getValue_updNode,
      getValue_updValue, if_pos rfl, getValue_updNode,
      getValue_updValue, if_pos rfl, getValue_updNode, hr]
    simp [Value.add_consumer, hrc]
  have hNode1 : World.getNode (Value.replace_all_uses_with w vid rid) n1
      = some { nd1 with inputs := (nd1.inputs.set 0 rid).set 1 rid } := by
    rw [hmain, getNode_updValue, getNode_updValue, getNode_updNode,
      if_neg hn12, getNode_updValue, getNode_updNode, if_pos rfl, hn1W1]
    rfl
  have hNode2 : World.getNode (Value.replace_all_uses_with w vid rid) n2
      = some { nd2 with inputs := nd2.inputs.set 0 rid } := by
    rw [hmain, getNode_updValue, getNode_updValue, getNode_updNode,
      if_pos rfl, hn2W2]
    rfl
  refine ⟨hValVid, ?_, hValRid, ?_, hNode1, ?_, ?_, hNode2, ?_,
    rfl, rfl, rfl, rfl, rfl⟩
  · rfl
  · rw [Value.num_uses]
    simp [List.filter_cons, hlivePres, hlive1, hlive2]
  · rw [List.getElem?_set_ne (by omega)]
    exact List.getElem?_set_eq_of_lt rid (by omega)
  · exact List.getElem?_set_eq_of_lt rid (by simp only [List.length_set]; omega)
  · exact List.getElem?_set_eq_of_lt rid (by omega)

/-- Witness for C1: the scenario of spec section 8 — a value used twice by
an Add node and once by a Mul node, replaced by a fresh value. -/
theorem claim1_witness :
    World.getValue (Value.replace_all_uses_with (⟨[(1, ⟨"Add", [10, 10]⟩), (2, ⟨"Mul", [10]⟩)],
      [(10, ⟨"original", none, none, none, [(1, 0), (1, 1), (2, 0)]⟩),
       (20, ⟨"replacement", none, none, none, []⟩)]⟩ : World) 10 20) 10
        = some (Value.clear_consumers (⟨"original", none, none, none, [(1, 0), (1, 1), (2, 0)]⟩ : ValueData)) ∧
    Value.num_uses (Value.replace_all_uses_with (⟨[(1, ⟨"Add", [10, 10]⟩), (2, ⟨"Mul", [10]⟩)],
      [(10, ⟨"original", none, none, none, [(1, 0), (1, 1), (2, 0)]⟩),
       (20, ⟨"replacement", none, none, none, []⟩)]⟩ : World) 10 20)
        (Value.clear_consumers (⟨"original", none, none, none, [(1, 0), (1, 1), (2, 0)]⟩ : ValueData)) = 0 ∧
    World.getValue (Value.replace_all_uses_with (⟨[(1, ⟨"Add", [10, 10]⟩), (2, ⟨"Mul", [10]⟩)],
      [(10, ⟨"original", none, none, none, [(1, 0), (1, 1), (2, 0)]⟩),
       (20, ⟨"replacement", none, none, none, []⟩)]⟩ : World) 10 20) 20
        = some { (⟨"replacement", none, none, none, []⟩ : ValueData) with consumers := [(1, 0), (1, 1), (2, 0)] } ∧
    Value.num_uses (Value.replace_all_uses_with (⟨[(1, ⟨"Add", [10, 10]⟩), (2, ⟨"Mul", [10]⟩)],
      [(10, ⟨"original", none, none, none, [(1, 0), (1, 1), (2, 0)]⟩),
       (20, ⟨"replacement", none, none, none, []⟩)]⟩ : World) 10 20)
        { (⟨"replacement", none, none, none, []⟩ : ValueData) with consumers := [(1, 0), (1, 1), (2, 0)] } = 3 ∧
    World.getNode (Value.replace_all_uses_with (⟨[(1, ⟨"Add", [10, 10]⟩), (2, ⟨"Mul", [10]⟩)],
      [(10, ⟨"original", none, none, none, [(1, 0), (1, 1), (2, 0)]⟩),
       (20, ⟨"replacement", none, none, none, []⟩)]⟩ : World) 10 20) 1
        = some { (⟨"Add", [10, 10]⟩ : NodeData) with inputs := (((⟨"Add", [10, 10]⟩ : NodeData)).inputs.set 0 20).set 1 20 } ∧
    ((((⟨"Add", [10, 10]⟩ : NodeData)).inputs.set 0 20).set 1 20)[0]? = some 20 ∧
    ((((⟨"Add", [10, 10]⟩ : NodeData)).inputs.set 0 20).set 1 20)[1]? = some 20 ∧
    World.getNode (Value.replace_all_uses_with (⟨[(1, ⟨"Add", [10, 10]⟩), (2, ⟨"Mul", [10]⟩)],
      [(10, ⟨"original", none, none, none, [(1, 0), (1, 1), (2, 0)]⟩),
       (20, ⟨"replacement", none, none, none, []⟩)]⟩ : World) 10 20) 2
        = some { (⟨"Mul", [10]⟩ : NodeData) with inputs := ((⟨"Mul", [10]⟩ : NodeData)).inputs.set 0 20 } ∧
    (((⟨"Mul", [10]⟩ : NodeData)).inputs.set 0 20)[0]? = some 20 ∧
    ({ (⟨"replacement", none, none, none, []⟩ : ValueData) with consumers := [(1, 0), (1, 1), (2, 0)] } : ValueData).name
        = ((⟨"replacement", none, none, none, []⟩ : ValueData)).name ∧
    ({ (⟨"replacement", none, none, none, []⟩ : ValueData) with consumers := [(1, 0), (1, 1), (2, 0)] } : ValueData).shape
        = ((⟨"replacement", none, none, none, []⟩ : ValueData)).shape ∧
    ({ (⟨"replacement", none, none, none, []⟩ : ValueData) with consumers := [(1, 0), (1, 1), (2, 0)] } : ValueData).type_
        = ((⟨"replacement", none, none, none, []⟩ : ValueData)).type_ ∧
    ({ (⟨"replacement", none, none, none, []⟩ : ValueData) with consumers := [(1, 0), (1, 1), (2, 0)] } : ValueData).producer
        = ((⟨"replacement", none, none, none, []⟩ : ValueData)).producer ∧
    (Value.clear_consumers (⟨"original", none, none, none, [(1, 0), (1, 1), (2, 0)]⟩ : ValueData)).producer = ((⟨"original", none, none, none, [(1, 0), (1, 1), (2, 0)]⟩ : ValueData)).producer :=
  claim1_replace_all_uses (⟨[(1, ⟨"Add", [10, 10]⟩), (2, ⟨"Mul", [10]⟩)],
      [(10, ⟨"original", none, none, none, [(1, 0), (1, 1), (2, 0)]⟩),
       (20, ⟨"replacement", none, none, none, []⟩)]⟩ : World) 10 20 1 2
    (⟨"original", none, none, none, [(1, 0), (1, 1), (2, 0)]⟩ : ValueData)
    (⟨"replacement", none, none, none, []⟩ : ValueData)
    (⟨"Add", [10, 10]⟩ : NodeData) (⟨"Mul", [10]⟩ : NodeData)
    (by decide) rfl (by decide) rfl (by decide) (by decide)
    (by decide) (by decide) (by decide) (by decide)

/-! ## Linked-list machinery: segment lemmas -/

theorem hupd_same {α : Type} (h : Nat → Cell α) (i : Nat)
    (f : Cell α → Cell α) : hupd h i f i = f (h i) := by
  simp [hupd]

theorem hupd_other {α : Type} (h : Nat → Cell α) (i : Nat)
    (f : Cell α → Cell α) (j : Nat) (hne : j ≠ i) : hupd h i f j = h j := by
  simp [hupd, hne]

theorem seg_congr {α : Type} {h h' : Nat → Cell α} :
    ∀ {L : List (Nat × α)} {p c p' c' : Nat},
      (∀ x ∈ L, h' x.1 = h x.1) → seg h p c L p' c' → seg h' p c L p' c' := by
  intro L
  induction L with
  | nil => intro p c p' c' _ hs; exact hs
  | cons x rest ih =>
      intro p c p' c' hag hs
      obtain ⟨i, v⟩ := x
      obtain ⟨hc, hprev, hval, nn, hnext, htail⟩ := hs
      have hxi : h' i = h i := hag (i, v) (List.mem_cons_self _ _)
      exact ⟨hc, by rw [hxi]; exact hprev, by rw [hxi]; exact hval, nn,
        by rw [hxi]; exact hnext,
        ih (fun y hy => hag y (List.mem_cons_of_mem _ hy)) htail⟩

theorem seg_append {α : Type} {h : Nat → Cell α} (L : List (Nat × α)) :
    ∀ (M : List (Nat × α)) (p c p' c' : Nat),
      seg h p c (L ++ M) p' c' ↔
        ∃ q d, seg h p c L q d ∧ seg h q d M p' c' := by
  induction L with
  | nil =>
      intro M p c p' c'
      constructor
      · intro hs
        exact ⟨p, c, ⟨rfl, rfl⟩, hs⟩
      · rintro ⟨q, d, ⟨hq, hd⟩, hs⟩
        rw [hq, hd] at hs
        exact hs
  | cons x rest ih =>
      intro M p c p' c'
      obtain ⟨i, v⟩ := x
      constructor
      · intro hs
        obtain ⟨hc, hprev, hval, nn, hnext, htail⟩ := hs
        obtain ⟨q, d, h1, h2⟩ := (ih M i nn p' c').mp htail
        exact ⟨q, d, ⟨hc, hprev, hval, nn, hnext, h1⟩, h2⟩
      · rintro ⟨q, d, ⟨hc, hprev, hval, nn, hnext, h1⟩, h2⟩
        exact ⟨hc, hprev, hval, nn, hnext, (ih M i nn p' c').mpr ⟨q, d, h1, h2⟩⟩

theorem seg_last_mem {α : Type} {h : Nat → Cell α} (L : List (Nat × α)) :
    ∀ p c p' c', seg h p c L p' c' → L ≠ [] → p' ∈ L.map Prod.fst := by
  induction L with
  | nil => intro p c p' c' _ hne; exact absurd rfl hne
  | cons x rest ih =>
      intro p c p' c' hs _
      obtain ⟨i, v⟩ := x
      obtain ⟨hc, hprev, hval, nn, hnext, htail⟩ := hs
      simp only [List.map_cons]
      by_cases hr : rest = []
      · subst hr
        obtain ⟨hp, _⟩ := htail
        rw [hp]
        exact List.mem_cons_self _ _
      · exact List.mem_cons_of_mem _ (ih i nn p' c' htail hr)

theorem seg_set_last_next {α : Type} {h h' : Nat → Cell α}
    (L : List (Nat × α)) :
    ∀ (p c p' c' c'' : Nat), (L.map Prod.fst).Nodup → L ≠ [] →
      seg h p c L p' c' →
      (∀ x ∈ L, x.1 ≠ p' → h' x.1 = h x.1) →
      (h' p').prev = (h p').prev → (h' p').value = (h p').value →
      (h' p').next = some c'' →
      seg h' p c L p' c'' := by
  induction L with
  | nil => intro p c p' c' c'' _ hne; exact absurd rfl hne
  | cons x rest ih =>
      intro p c p' c' c'' hnd hne hs hag hp hv hn
      obtain ⟨i, v⟩ := x
      obtain ⟨hc, hprev, hval, nn, hnext, htail⟩ := hs
      by_cases hr : rest = []
      · subst hr
        obtain ⟨hpi, _⟩ := htail
        subst hpi
        exact ⟨hc, by rw [hp]; exact hprev, by rw [hv]; exact hval, c'', hn,
          rfl, rfl⟩
      · have hp'mem : p' ∈ rest.map Prod.fst :=
          seg_last_mem rest i nn p' c' htail hr
        have hnd2 : (i :: rest.map Prod.fst).Nodup := by
          simpa only [List.map_cons] using hnd
        have hirest : i ∉ rest.map Prod.fst := (List.nodup_cons.mp hnd2).1
        have hip' : i ≠ p' := by
          intro e
          rw [e] at hirest
          exact hirest hp'mem
        have hi : h' i = h i := hag (i, v) (List.mem_cons_self _ _) hip'
        refine ⟨hc, by rw [hi]; exact hprev, by rw [hi]; exact hval, nn,
          by rw [hi]; exact hnext, ?_⟩
        exact ih i nn p' c' c'' (List.nodup_cons.mp hnd2).2
          hr htail (fun y hy hyp => hag y (List.mem_cons_of_mem _ hy) hyp)
          hp hv hn

theorem seg_set_head_prev {α : Type} {h h' : Nat → Cell α} (i : Nat) (v : α)
    (rest : List (Nat × α)) (p p2 c p' c' : Nat)
    (hs : seg h p c ((i, v) :: rest) p' c')
    (hag : ∀ x ∈ rest, h' x.1 = h x.1)
    (hh : (h' i).value = (h i).value) (hn : (h' i).next = (h i).next)
    (hp2 : (h' i).prev = some p2) :
    seg h' p2 c ((i, v) :: rest) p' c' := by
  obtain ⟨hc, hprev, hval, nn, hnext, htail⟩ := hs
  refine ⟨hc, hp2, by rw [hh]; exact hval, nn, by rw [hn]; exact hnext, ?_⟩
  exact seg_congr hag htail

theorem collect_of_seg {α : Type} (s : LL α) (B : List (Nat × α)) :
    ∀ (q d last fuel : Nat), seg s.heap q d B last s.root →
      s.root ∉ B.map Prod.fst → B.length < fuel →
      LL.collect s fuel (some d) = B.map Prod.snd := by
  induction B with
  | nil =>
      intro q d last fuel hs _ hf
      obtain ⟨_, hd⟩ := hs
      cases fuel with
      | zero => omega
      | succ f =>
          rw [← hd]
          simp [LL.collect]
  | cons x rest ih =>
      intro q d last fuel hs hroot hf
      obtain ⟨i, v⟩ := x
      obtain ⟨hc, hprev, hval, nn, hnext, htail⟩ := hs
      rw [hc]
      have hir : i ≠ s.root := by
        intro e
        apply hroot
        rw [← e]
        exact List.mem_cons_self _ _
      cases fuel with
      | zero => omega
      | succ f =>
          rw [LL.collect]
          rw [if_neg hir, hval, hnext]
          have := ih i nn last f htail
            (fun hm => hroot (List.mem_cons_of_mem _ hm))
            (by simp at hf; omega)
          rw [this]
          rfl

theorem repLL_new {α : Type} : RepLL (LL.new : LL α) [] := by
  refine ⟨Nat.one_pos, by simp, ?_, rfl, rfl, 0, 0, rfl, rfl, rfl, rfl⟩
  intro p hp
  cases hp

theorem segChk_sound {α : Type} [DecidableEq α] (h : Nat → Cell α) :
    ∀ (L : List (Nat × α)) (p c p' c' : Nat),
      segChk h p c L p' c' = true → seg h p c L p' c' := by
  intro L
  induction L with
  | nil =>
      intro p c p' c' hchk
      simp only [segChk, Bool.and_eq_true, beq_iff_eq] at hchk
      exact ⟨hchk.1, hchk.2⟩
  | cons x rest ih =>
      intro p c p' c' hchk
      obtain ⟨i, v⟩ := x
      cases hm : (h i).next with
      | none =>
          rw [segChk, hm] at hchk
          simp at hchk
      | some n =>
          rw [segChk, hm] at hchk
          simp only [Bool.and_eq_true, beq_iff_eq] at hchk
          obtain ⟨⟨⟨hc, hpv⟩, hvv⟩, hrest⟩ := hchk
          exact ⟨hc, hpv, hvv, n, hm, ih i n p' c' hrest⟩

theorem repChk_sound {α : Type} [DecidableEq α] (s : LL α)
    (L : List (Nat × α)) (hchk : repChk s L = true) : RepLL s L := by
  rw [repChk] at hchk
  cases hn : (s.heap s.root).next with
  | none =>
      rw [hn] at hchk
      simp at hchk
  | some n =>
      cases hp : (s.heap s.root).prev with
      | none =>
          rw [hn, hp] at hchk
          simp at hchk
      | some last =>
          rw [hn, hp] at hchk
          simp only [Bool.and_eq_true, decide_eq_true_eq, beq_iff_eq] at hchk
          obtain ⟨⟨⟨⟨⟨h1, h2⟩, h3⟩, h4⟩, h5⟩, h6⟩ := hchk
          exact ⟨h1, h2, h3, h4, h5, n, last, hn, hp,
            segChk_sound s.heap L s.root n last s.root h6⟩

theorem insertBeforeLink_eq {α : Type} (s : LL α) (b nl p : Nat)
    (hp : (s.heap b).prev = some p) :
    LL.insertBeforeLink s b nl = some
      { s with
        heap :=
          hupd (hupd (hupd s.heap nl
                (fun c => { c with prev := some p, next := some b })) p
              (fun c => { c with next := some nl })) b
            (fun c => { c with prev := some nl }),
        length := s.length + 1 } := by
  simp only [LL.insertBeforeLink, hp]

theorem heap_of_mk {α : Type} (G : Nat → Cell α) (fr r l : Nat) :
    ({ heap := G, fresh := fr, root := r, length := l } : LL α).heap = G := rfl

theorem push_back_rep {α : Type} (s : LL α) (L : List (Nat × α)) (v : α)
    (h : RepLL s L) :
    ∃ s', LL.push_back s v = some s' ∧ RepLL s' (L ++ [(s.fresh, v)]) := by
  obtain ⟨hroot, hnd, hbound, hlen, hrootval, n, last, hrnext, hrprev, hseg⟩ := h
  have hrf : s.root ≠ s.fresh := Nat.ne_of_lt hroot
  have hscrut : (hupd s.heap s.fresh
      (fun _ => (⟨none, none, some v⟩ : Cell α)) s.root).prev = some last := by
    rw [hupd_other _ _ _ _ hrf]
    exact hrprev
  have hfull : LL.push_back s v = some
      { heap :=
          hupd (hupd (hupd (hupd s.heap s.fresh
                  (fun _ => (⟨none, none, some v⟩ : Cell α))) s.fresh
                (fun c => { c with prev := some last, next := some s.root }))
              last (fun c => { c with next := some s.fresh })) s.root
            (fun c => { c with prev := some s.fresh }),
        fresh := s.fresh + 1, root := s.root, length := s.length + 1 } := by
    have h1 := insertBeforeLink_eq
      { s with
        heap := hupd s.heap s.fresh (fun _ => (⟨none, none, some v⟩ : Cell α)),
        fresh := s.fresh + 1 }
      s.root s.fresh last hscrut
    exact h1
  refine ⟨_, hfull, ?_⟩
  by_cases hLne : L = []
  · subst hLne
    obtain ⟨hlast, hn⟩ := hseg
    subst hlast
    have hfr : s.fresh ≠ s.root := fun e => hrf e.symm
    refine ⟨Nat.lt_succ_of_lt hroot, by simp [hrf], ?_,
      by show s.length + 1 = _; simp [hlen], ?_,
      s.fresh, s.fresh, ?_, ?_, rfl, ?_, ?_, s.root, ?_, rfl, rfl⟩
    · intro p hp
      simp at hp
      subst hp
      show s.fresh < s.fresh + 1
      omega
    · show (hupd _ s.root _ s.root).value = none
      rw [hupd_same]
      show (hupd _ s.root _ s.root).value = none
      rw [hupd_same]
      show (hupd _ s.fresh _ s.root).value = none
      rw [hupd_other _ _ _ _ hrf, hupd_other _ _ _ _ hrf]
      exact hrootval
    · show (hupd _ s.root _ s.root).next = some s.fresh
      rw [hupd_same]
      show (hupd _ s.root _ s.root).next = some s.fresh
      rw [hupd_same]
    · show (hupd _ s.root _ s.root).prev = some s.fresh
      rw [hupd_same]
    · show (hupd _ s.root _ s.fresh).prev = some s.root
      rw [hupd_other _ _ _ _ hfr, hupd_other _ _ _ _ hfr, hupd_same]
    · show (hupd _ s.root _ s.fresh).value = some v
      rw [hupd_other _ _ _ _ hfr, hupd_other _ _ _ _ hfr, hupd_same]
      show (hupd _ s.fresh _ s.fresh).value = some v
      rw [hupd_same]
    · show (hupd _ s.root _ s.fresh).next = some s.root
      rw [hupd_other _ _ _ _ hfr, hupd_other _ _ _ _ hfr, hupd_same]
  · obtain ⟨M, x, hLdec⟩ : ∃ M x, L = M ++ [x] :=
      ⟨L.dropLast, L.getLast hLne, (List.dropLast_append_getLast hLne).symm⟩
    obtain ⟨li, lv⟩ := x
    subst hLdec
    obtain ⟨q, d, hM, htl⟩ :=
      (seg_append M [(li, lv)] s.root n last s.root).mp hseg
    obtain ⟨hd, hprevli, hvalli, nn, hnextli, hlast, hrootnn⟩ := htl
    subst hlast
    have hli_mem : last ∈ (M ++ [(last, lv)]).map Prod.fst := by simp
    have hli_root : last ≠ s.root := by
      intro e
      have h2 := (List.nodup_cons.mp hnd).1
      rw [← e] at h2
      exact h2 hli_mem
    have hli_fresh : last ≠ s.fresh := by
      have h2 := hbound (last, lv) (by simp)
      simp only at h2
      omega
    have hfr : s.fresh ≠ s.root := fun e => hrf e.symm
    have hfl : s.fresh ≠ last := fun e => hli_fresh e.symm
    have hrl : s.root ≠ last := fun e => hli_root e.symm
    refine ⟨Nat.lt_succ_of_lt hroot, ?_, ?_,
      by show s.length + 1 = _; simp [hlen], ?_,
      n, s.fresh, ?_, ?_, ?_⟩
    · have hm1 : ((s.root :: (M ++ [(last, lv)]).map Prod.fst)
          ++ [s.fresh]).Nodup := by
        rw [List.nodup_append]
        refine ⟨hnd, by simp, ?_⟩
        intro a ha
        simp only [List.mem_singleton]
        intro e
        subst e
        rcases List.mem_cons.mp ha with h1 | h2
        · exact hrf h1.symm
        · obtain ⟨pp, hpp, hppe⟩ := List.mem_map.mp h2
          have h3 := hbound pp hpp
          omega
      rw [List.map_append]
      simpa using hm1
    · intro p hp
      rcases List.mem_append.mp hp with h1 | h2
      · have h3 := hbound p h1
        show p.1 < s.fresh + 1
        omega
      · simp at h2
        subst h2
        show s.fresh < s.fresh + 1
        omega
    · show (hupd _ s.root _ s.root).value = none
      rw [hupd_same]
      show (hupd _ last _ s.root).value = none
      rw [hupd_other _ _ _ _ hrl, hupd_other _ _ _ _ hrf,
        hupd_other _ _ _ _ hrf]
      exact hrootval
    · show (hupd _ s.root _ s.root).next = some n
      rw [hupd_same]
      show (hupd _ last _ s.root).next = some n
      rw [hupd_other _ _ _ _ hrl, hupd_other _ _ _ _ hrf,
        hupd_other _ _ _ _ hrf]
      exact hrnext
    · show (hupd _ s.root _ s.root).prev = some s.fresh
      rw [hupd_same]
    · show seg _ s.root n ((M ++ [(last, lv)]) ++ [(s.fresh, v)]) s.fresh s.root
      rw [seg_append]
      refine ⟨last, s.fresh, ?_, ?_⟩
      · apply seg_set_last_next (M ++ [(last, lv)]) s.root n last s.root
          s.fresh (List.nodup_cons.mp hnd).2 (by simp) hseg
        · intro x hx hxl
          have hx_root : x.1 ≠ s.root := by
            intro e
            have h2 := (List.nodup_cons.mp hnd).1
            rw [← e] at h2
            exact h2 (List.mem_map.mpr ⟨x, hx, rfl⟩)
          have hx_fresh : x.1 ≠ s.fresh := by
            have h3 := hbound x hx
            omega
          rw [heap_of_mk]
          rw [hupd_other _ _ _ _ hx_root, hupd_other _ _ _ _ hxl,
            hupd_other _ _ _ _ hx_fresh, hupd_other _ _ _ _ hx_fresh]
        · show (hupd _ s.root _ last).prev = (s.heap last).prev
          rw [hupd_other _ _ _ _ hli_root, hupd_same]
          show (hupd _ s.fresh _ last).prev = (s.heap last).prev
          rw [hupd_other _ _ _ _ hli_fresh, hupd_other _ _ _ _ hli_fresh]
        · show (hupd _ s.root _ last).value = (s.heap last).value
          rw [hupd_other _ _ _ _ hli_root, hupd_same]
          show (hupd _ s.fresh _ last).value = (s.heap last).value
          rw [hupd_other _ _ _ _ hli_fresh, hupd_other _ _ _ _ hli_fresh]
        · show (hupd _ s.root _ last).next = some s.fresh
          rw [hupd_other _ _ _ _ hli_root, hupd_same]
      · refine ⟨rfl, ?_, ?_, s.root, ?_, rfl, rfl⟩
        · show (hupd _ s.root _ s.fresh).prev = some last
          rw [hupd_other _ _ _ _ hfr, hupd_other _ _ _ _ hfl, hupd_same]
        · show (hupd _ s.root _ s.fresh).value = some v
          rw [hupd_other _ _ _ _ hfr, hupd_other _ _ _ _ hfl, hupd_same]
          show (hupd _ s.fresh _ s.fresh).value = some v
          rw [hupd_same]
        · show (hupd _ s.root _ s.fresh).next = some s.root
          rw [hupd_other _ _ _ _ hfr, hupd_other _ _ _ _ hfl, hupd_same]

theorem push_front_rep {α : Type} (s : LL α) (L : List (Nat × α)) (v : α)
    (h : RepLL s L) :
    ∃ s', LL.push_front s v = some s' ∧ RepLL s' ((s.fresh, v) :: L) := by
  obtain ⟨hroot, hnd, hbound, hlen, hrootval, n, last, hrnext, hrprev, hseg⟩ := h
  have hrf : s.root ≠ s.fresh := Nat.ne_of_lt hroot
  have hfr : s.fresh ≠ s.root := fun e => hrf e.symm
  have hrootnext : (hupd s.heap s.fresh
      (fun _ => (⟨none, none, some v⟩ : Cell α)) s.root).next = some n := by
    rw [hupd_other _ _ _ _ hrf]
    exact hrnext
  by_cases hLne : L = []
  · subst hLne
    obtain ⟨hlast, hn⟩ := hseg
    subst hlast
    have hprevn : (hupd s.heap s.fresh
        (fun _ => (⟨none, none, some v⟩ : Cell α)) n).prev = some s.root := by
      rw [← hn, hupd_other _ _ _ _ hrf]
      exact hrprev
    have hfull : LL.push_front s v = some
        { heap :=
            hupd (hupd (hupd (hupd s.heap s.fresh
                    (fun _ => (⟨none, none, some v⟩ : Cell α))) s.fresh
                  (fun c => { c with prev := some s.root, next := some n })) s.root
                (fun c => { c with next := some s.fresh })) n
              (fun c => { c with prev := some s.fresh }),
          fresh := s.fresh + 1, root := s.root, length := s.length + 1 } := by
      have h1 := insertBeforeLink_eq
        { s with
          heap := hupd s.heap s.fresh
            (fun _ => (⟨none, none, some v⟩ : Cell α)),
          fresh := s.fresh + 1 }
        n s.fresh s.root hprevn
      show (match (hupd s.heap s.fresh
          (fun _ => (⟨none, none, some v⟩ : Cell α)) s.root).next with
        | none => none
        | some first => LL.insertBeforeLink
            { s with
              heap := hupd s.heap s.fresh
                (fun _ => (⟨none, none, some v⟩ : Cell α)),
              fresh := s.fresh + 1 } first s.fresh) = _
      rw [hrootnext]
      exact h1
    rw [← hn] at hfull
    refine ⟨_, hfull, Nat.lt_succ_of_lt hroot, by simp [hrf], ?_,
      by show s.length + 1 = _; simp [hlen], ?_,
      s.fresh, s.fresh, ?_, ?_, rfl, ?_, ?_, s.root, ?_, rfl, rfl⟩
    · intro p hp
      simp at hp
      subst hp
      show s.fresh < s.fresh + 1
      omega
    · show (hupd _ s.root _ s.root).value = none
      rw [hupd_same]
      show (hupd _ s.root _ s.root).value = none
      rw [hupd_same]
      show (hupd _ s.fresh _ s.root).value = none
      rw [hupd_other _ _ _ _ hrf, hupd_other _ _ _ _ hrf]
      exact hrootval
    · show (hupd _ s.root _ s.root).next = some s.fresh
      rw [hupd_same]
      show (hupd _ s.root _ s.root).next = some s.fresh
      rw [hupd_same]
    · show (hupd _ s.root _ s.root).prev = some s.fresh
      rw [hupd_same]
    · show (hupd _ s.root _ s.fresh).prev = some s.root
      rw [hupd_other _ _ _ _ hfr, hupd_other _ _ _ _ hfr, hupd_same]
    · show (hupd _ s.root _ s.fresh).value = some v
      rw [hupd_other _ _ _ _ hfr, hupd_other _ _ _ _ hfr, hupd_same]
      show (hupd _ s.fresh _ s.fresh).value = some v
      rw [hupd_same]
    · show (hupd _ s.root _ s.fresh).next = some s.root
      rw [hupd_other _ _ _ _ hfr, hupd_other _ _ _ _ hfr, hupd_same]
  · obtain ⟨x, rest, hLdec⟩ : ∃ x rest, L = x :: rest :=
      ⟨L.head (by exact hLne), L.tail, (List.head_cons_tail L hLne).symm⟩
    obtain ⟨f1, fv⟩ := x
    subst hLdec
    obtain ⟨hc, hprevf1, hvalf1, nn2, hnextf1, htail⟩ := hseg
    subst hc
    have hf1_root : n ≠ s.root := by
      intro e
      have h2 := (List.nodup_cons.mp hnd).1
      rw [← e] at h2
      exact h2 (by simp)
    have hf1_fresh : n ≠ s.fresh := by
      have h2 := hbound (n, fv) (by simp)
      simp only at h2
      omega
    have hrn : s.root ≠ n := fun e => hf1_root e.symm
    have hfn : s.fresh ≠ n := fun e => hf1_fresh e.symm
    have hprevn : (hupd s.heap s.fresh
        (fun _ => (⟨none, none, some v⟩ : Cell α)) n).prev = some s.root := by
      rw [hupd_other _ _ _ _ hf1_fresh]
      exact hprevf1
    have hfull : LL.push_front s v = some
        { heap :=
            hupd (hupd (hupd (hupd s.heap s.fresh
                    (fun _ => (⟨none, none, some v⟩ : Cell α))) s.fresh
                  (fun c => { c with prev := some s.root, next := some n }))
                s.root (fun c => { c with next := some s.fresh })) n
              (fun c => { c with prev := some s.fresh }),
          fresh := s.fresh + 1, root := s.root, length := s.length + 1 } := by
      have h1 := insertBeforeLink_eq
        { s with
          heap := hupd s.heap s.fresh
            (fun _ => (⟨none, none, some v⟩ : Cell α)),
          fresh := s.fresh + 1 }
        n s.fresh s.root hprevn
      show (match (hupd s.heap s.fresh
          (fun _ => (⟨none, none, some v⟩ : Cell α)) s.root).next with
        | none => none
        | some first => LL.insertBeforeLink
            { s with
              heap := hupd s.heap s.fresh
                (fun _ => (⟨none, none, some v⟩ : Cell α)),
              fresh := s.fresh + 1 } first s.fresh) = _
      rw [hrootnext]
      exact h1
    refine ⟨_, hfull, Nat.lt_succ_of_lt hroot, ?_, ?_,
      by show s.length + 1 = _; simp [hlen], ?_,
      s.fresh, last, ?_, ?_, ?_⟩
    · show (s.root :: s.fresh :: (n, fv).1 :: rest.map Prod.fst).Nodup
      have hns : ((n, fv).1 :: rest.map Prod.fst).Nodup :=
        (List.nodup_cons.mp hnd).2
      have hrm : s.root ∉ (n, fv).1 :: rest.map Prod.fst :=
        (List.nodup_cons.mp hnd).1
      refine List.nodup_cons.mpr ⟨?_, List.nodup_cons.mpr ⟨?_, hns⟩⟩
      · intro hmem
        rcases List.mem_cons.mp hmem with h1 | h2
        · exact hrf h1
        · exact hrm h2
      · intro hmem
        rcases List.mem_cons.mp hmem with h1 | h2
        · exact hfn h1
        · obtain ⟨pp, hpp, hppe⟩ := List.mem_map.mp h2
          have h3 := hbound pp (List.mem_cons_of_mem _ hpp)
          omega
    · intro p hp
      rcases List.mem_cons.mp hp with h1 | h2
      · subst h1
        show s.fresh < s.fresh + 1
        omega
      · have h3 := hbound p h2
        show p.1 < s.fresh + 1
        omega
    · show (hupd _ n _ s.root).value = none
      rw [hupd_other _ _ _ _ hrn, hupd_same]
      show (hupd _ s.fresh _ s.root).value = none
      rw [hupd_other _ _ _ _ hrf, hupd_other _ _ _ _ hrf]
      exact hrootval
    · show (hupd _ n _ s.root).next = some s.fresh
      rw [hupd_other _ _ _ _ hrn, hupd_same]
    · show (hupd _ n _ s.root).prev = some last
      rw [hupd_other _ _ _ _ hrn, hupd_same]
      show (hupd _ s.fresh _ s.root).prev = some last
      rw [hupd_other _ _ _ _ hrf, hupd_other _ _ _ _ hrf]
      exact hrprev
    · refine ⟨rfl, ?_, ?_, n, ?_, ?_⟩
      · show (hupd _ n _ s.fresh).prev = some s.root
        rw [hupd_other _ _ _ _ hfn, hupd_other _ _ _ _ hfr, hupd_same]
      · show (hupd _ n _ s.fresh).value = some v
        rw [hupd_other _ _ _ _ hfn, hupd_other _ _ _ _ hfr, hupd_same]
        show (hupd _ s.fresh _ s.fresh).value = some v
        rw [hupd_same]
      · show (hupd _ n _ s.fresh).next = some n
        rw [hupd_other _ _ _ _ hfn, hupd_other _ _ _ _ hfr, hupd_same]
      · apply seg_set_head_prev n fv rest s.root s.fresh n last s.root
          ⟨rfl, hprevf1, hvalf1, nn2, hnextf1, htail⟩
        · intro x hx
          have hx_n : x.1 ≠ n := by
            intro e
            have h2 := (List.nodup_cons.mp (List.nodup_cons.mp hnd).2).1
            rw [← e] at h2
            exact h2 (List.mem_map.mpr ⟨x, hx, rfl⟩)
          have hx_root : x.1 ≠ s.root := by
            intro e
            have h2 := (List.nodup_cons.mp hnd).1
            rw [← e] at h2
            exact h2 (List.mem_cons_of_mem _ (List.mem_map.mpr ⟨x, hx, rfl⟩))
          have hx_fresh : x.1 ≠ s.fresh := by
            have h3 := hbound x (List.mem_cons_of_mem _ hx)
            omega
          rw [heap_of_mk]
          rw [hupd_other _ _ _ _ hx_n, hupd_other _ _ _ _ hx_root,
            hupd_other _ _ _ _ hx_fresh, hupd_other _ _ _ _ hx_fresh]
        · show (hupd _ n _ n).value = (s.heap n).value
          rw [hupd_same]
          show (hupd _ s.root _ n).value = (s.heap n).value
          rw [hupd_other _ _ _ _ hf1_root, hupd_other _ _ _ _ hf1_fresh,
            hupd_other _ _ _ _ hf1_fresh]
        · show (hupd _ n _ n).next = (s.heap n).next
          rw [hupd_same]
          show (hupd _ s.root _ n).next = (s.heap n).next
          rw [hupd_other _ _ _ _ hf1_root, hupd_other _ _ _ _ hf1_fresh,
            hupd_other _ _ _ _ hf1_fresh]
        · show (hupd _ n _ n).prev = some s.fresh
          rw [hupd_same]

theorem erase_eq {α : Type} (s : LL α) (l p n0 : Nat) (v : α)
    (hv : (s.heap l).value = some v)
    (hp : (s.heap l).prev = some p) (hn : (s.heap l).next = some n0) :
    LL.erase s l = (some v,
      { s with
        heap :=
          hupd (hupd (hupd (hupd s.heap l
                  (fun cc => { cc with prev := none, next := none })) p
                (fun cc => { cc with next := some n0 })) n0
              (fun cc => { cc with prev := some p })) l
            (fun cc =>
              { cc with
                prev := some p, next := some n0, value := none }) }) := by
  simp only [LL.erase, hv, hp, hn]

theorem pop_back_eq {α : Type} (s : LL α) (last : Nat)
    (hne0 : ¬ s.length = 0)
    (hprev : (s.heap s.root).prev = some last)
    (hcond : ((s.heap last).value.isSome && !(last == s.root)) = true) :
    LL.pop_back s = some ((LL.erase s last).1,
      { (LL.erase s last).2 with length := s.length - 1 }) := by
  simp only [LL.pop_back, if_neg hne0, hprev, if_pos hcond]

theorem pop_front_eq {α : Type} (s : LL α) (first : Nat)
    (hne0 : ¬ s.length = 0)
    (hnext : (s.heap s.root).next = some first)
    (hcond : ((s.heap first).value.isSome && !(first == s.root)) = true) :
    LL.pop_front s = some ((LL.erase s first).1,
      { (LL.erase s first).2 with length := s.length - 1 }) := by
  simp only [LL.pop_front, if_neg hne0, hnext, if_pos hcond]

theorem pop_back_rep {α : Type} (s : LL α) (L : List (Nat × α))
    (h : RepLL s L) :
    ∃ s', LL.pop_back s = some ((L.map Prod.snd).getLast?, s') ∧
      RepLL s' L.dropLast := by
  obtain ⟨hroot, hnd, hbound, hlen, hrootval, n, last, hrnext, hrprev, hseg⟩ := h
  by_cases hLne : L = []
  · subst hLne
    refine ⟨s, ?_, hroot, hnd, hbound, hlen, hrootval, n, last, hrnext,
      hrprev, hseg⟩
    simp [LL.pop_back, hlen]
  · obtain ⟨M, x, hLdec⟩ : ∃ M x, L = M ++ [x] :=
      ⟨L.dropLast, L.getLast hLne, (List.dropLast_append_getLast hLne).symm⟩
    obtain ⟨li, lv⟩ := x
    subst hLdec
    obtain ⟨q, d, hM, htl⟩ :=
      (seg_append M [(li, lv)] s.root n last s.root).mp hseg
    obtain ⟨hd, hprevli, hvalli, nn, hnextli, hlast, hrootnn⟩ := htl
    subst hlast
    have hnextlast : (s.heap last).next = some s.root := by
      rw [hnextli, ← hrootnn]
    have hrootnotin : s.root ∉ (M ++ [(last, lv)]).map Prod.fst :=
      (List.nodup_cons.mp hnd).1
    have hli_root : last ≠ s.root := by
      intro e
      exact hrootnotin (by rw [← e]; simp)
    have hrl : s.root ≠ last := fun e => hli_root e.symm
    have hnd_tail : (M.map Prod.fst ++ [last]).Nodup := by
      have h2 := (List.nodup_cons.mp hnd).2
      rw [List.map_append] at h2
      simpa using h2
    have hndM : (M.map Prod.fst).Nodup :=
      List.Nodup.sublist (List.sublist_append_left _ _) hnd_tail
    have hlast_notM : last ∉ M.map Prod.fst := by
      intro hmem
      rcases List.nodup_append.mp hnd_tail with ⟨h1, h2, h3⟩
      exact h3 hmem (by simp)
    have hne0 : ¬ s.length = 0 := by rw [hlen]; simp
    have hbeq : (last == s.root) = false := by simp [hli_root]
    have hcond : ((s.heap last).value.isSome && !(last == s.root)) = true := by
      rw [hvalli, hbeq]
      rfl
    have herase := erase_eq s last q s.root lv hvalli hprevli hnextlast
    have hpop := pop_back_eq s last hne0 hrprev hcond
    rw [herase] at hpop
    have hpop2 : LL.pop_back s = some (some lv,
        { heap :=
            hupd (hupd (hupd (hupd s.heap last
                    (fun cc => { cc with prev := none, next := none })) q
                  (fun cc => { cc with next := some s.root })) s.root
                (fun cc => { cc with prev := some q })) last
              (fun cc =>
                { cc with
                  prev := some q, next := some s.root, value := none }),
          fresh := s.fresh, root := s.root, length := s.length - 1 }) := hpop
    have hgl : ((M ++ [(last, lv)]).map Prod.snd).getLast? = some lv := by
      simp
    refine ⟨_, by rw [hgl, hpop2], ?_⟩
    rw [List.dropLast_concat]
    by_cases hM0 : M = []
    · subst hM0
      obtain ⟨hq, hd2⟩ := hM
      have hnlast : n = last := by rw [← hd2, hd]
      subst hq
      refine ⟨hroot, by simp, ?_, by show s.length - 1 = 0; rw [hlen]; simp,
        ?_, s.root, s.root, ?_, ?_, rfl, rfl⟩
      · intro p hp
        cases hp
      · show (hupd _ last _ s.root).value = none
        rw [hupd_other _ _ _ _ hrl, hupd_same]
        show (hupd _ s.root _ s.root).value = none
        rw [hupd_same]
        show (hupd _ last _ s.root).value = none
        rw [hupd_other _ _ _ _ hrl]
        exact hrootval
      · show (hupd _ last _ s.root).next = some s.root
        rw [hupd_other _ _ _ _ hrl, hupd_same]
        show (hupd _ s.root _ s.root).next = some s.root
        rw [hupd_same]
      · show (hupd _ last _ s.root).prev = some s.root
        rw [hupd_other _ _ _ _ hrl, hupd_same]
    · have hq_mem : q ∈ M.map Prod.fst := seg_last_mem M s.root n q d hM hM0
      have hq_root : q ≠ s.root := by
        intro e
        apply hrootnotin
        rw [← e, List.map_append]
        exact List.mem_append_left _ hq_mem
      have hrq : s.root ≠ q := fun e => hq_root e.symm
      have hq_last : q ≠ last := by
        intro e
        rw [e] at hq_mem
        exact hlast_notM hq_mem
      have hlq : last ≠ q := fun e => hq_last e.symm
      rw [hd] at hM
      refine ⟨hroot, ?_, ?_, by show s.length - 1 = _; rw [hlen]; simp,
        ?_, n, q, ?_, ?_, ?_⟩
      · refine List.nodup_cons.mpr ⟨?_, hndM⟩
        intro hmem
        apply hrootnotin
        rw [List.map_append]
        exact List.mem_append_left _ hmem
      · intro p hp
        exact hbound p (List.mem_append_left _ hp)
      · show (hupd _ last _ s.root).value = none
        rw [hupd_other _ _ _ _ hrl, hupd_same]
        show (hupd _ q _ s.root).value = none
        rw [hupd_other _ _ _ _ hrq]
        show (hupd _ last _ s.root).value = none
        rw [hupd_other _ _ _ _ hrl]
        exact hrootval
      · show (hupd _ last _ s.root).next = some n
        rw [hupd_other _ _ _ _ hrl, hupd_same]
        show (hupd _ q _ s.root).next = some n
        rw [hupd_other _ _ _ _ hrq]
        show (hupd _ last _ s.root).next = some n
        rw [hupd_other _ _ _ _ hrl]
        exact hrnext
      · show (hupd _ last _ s.root).prev = some q
        rw [hupd_other _ _ _ _ hrl, hupd_same]
      · apply seg_set_last_next M s.root n q last s.root hndM hM0 hM
        · intro x hx hxq
          have hx_root : x.1 ≠ s.root := by
            intro e
            apply hrootnotin
            rw [← e, List.map_append]
            exact List.mem_append_left _ (List.mem_map.mpr ⟨x, hx, rfl⟩)
          have hx_last : x.1 ≠ last := by
            intro e
            apply hlast_notM
            rw [← e]
            exact List.mem_map.mpr ⟨x, hx, rfl⟩
          rw [heap_of_mk]
          rw [hupd_other _ _ _ _ hx_last, hupd_other _ _ _ _ hx_root,
            hupd_other _ _ _ _ hxq, hupd_other _ _ _ _ hx_last]
        · show (hupd _ last _ q).prev = (s.heap q).prev
          rw [hupd_other _ _ _ _ hq_last]
          show (hupd _ s.root _ q).prev = (s.heap q).prev
          rw [hupd_other _ _ _ _ hq_root, hupd_same]
          show ({ (hupd _ last _ q) with
              next := some s.root } : Cell α).prev = (s.heap q).prev
          rw [hupd_other _ _ _ _ hq_last]
        · show (hupd _ last _ q).value = (s.heap q).value
          rw [hupd_other _ _ _ _ hq_last]
          show (hupd _ s.root _ q).value = (s.heap q).value
          rw [hupd_other _ _ _ _ hq_root, hupd_same]
          show ({ (hupd _ last _ q) with
              next := some s.root } : Cell α).value = (s.heap q).value
          rw [hupd_other _ _ _ _ hq_last]
        · show (hupd _ last _ q).next = some s.root
          rw [hupd_other _ _ _ _ hq_last]
          show (hupd _ s.root _ q).next = some s.root
          rw [hupd_other _ _ _ _ hq_root, hupd_same]

theorem pop_front_rep {α : Type} (s : LL α) (L : List (Nat × α))
    (h : RepLL s L) :
    ∃ s', LL.pop_front s = some ((L.map Prod.snd).head?, s') ∧
      RepLL s' L.tail := by
  obtain ⟨hroot, hnd, hbound, hlen, hrootval, n, last, hrnext, hrprev, hseg⟩ := h
  by_cases hLne : L = []
  · subst hLne
    refine ⟨s, ?_, hroot, hnd, hbound, hlen, hrootval, n, last, hrnext,
      hrprev, hseg⟩
    simp [LL.pop_front, hlen]
  · obtain ⟨x, rest, hLdec⟩ : ∃ x rest, L = x :: rest :=
      ⟨L.head hLne, L.tail, (List.head_cons_tail L hLne).symm⟩
    obtain ⟨f1, fv⟩ := x
    subst hLdec
    obtain ⟨hc, hprevf1, hvalf1, nn2, hnextf1, htail⟩ := hseg
    subst hc
    have hrootnotin : s.root ∉ ((n, fv) :: rest).map Prod.fst :=
      (List.nodup_cons.mp hnd).1
    have hn_root : n ≠ s.root := by
      intro e
      exact hrootnotin (by rw [← e]; simp)
    have hrn : s.root ≠ n := fun e => hn_root e.symm
    have hne0 : ¬ s.length = 0 := by rw [hlen]; simp
    have hbeq : (n == s.root) = false := by simp [hn_root]
    have hcond : ((s.heap n).value.isSome && !(n == s.root)) = true := by
      rw [hvalf1, hbeq]
      rfl
    have herase := erase_eq s n s.root nn2 fv hvalf1 hprevf1 hnextf1
    have hpop := pop_front_eq s n hne0 hrnext hcond
    rw [herase] at hpop
    have hpop2 : LL.pop_front s = some (some fv,
        { heap :=
            hupd (hupd (hupd (hupd s.heap n
                    (fun cc => { cc with prev := none, next := none })) s.root
                  (fun cc => { cc with next := some nn2 })) nn2
                (fun cc => { cc with prev := some s.root })) n
              (fun cc =>
                { cc with
                  prev := some s.root, next := some nn2, value := none }),
          fresh := s.fresh, root := s.root, length := s.length - 1 }) := hpop
    refine ⟨_, by rw [hpop2]; rfl, ?_⟩
    show RepLL _ rest
    by_cases hr0 : rest = []
    · subst hr0
      obtain ⟨hlast, hnn2⟩ := htail
      subst hnn2
      refine ⟨hroot, by simp, ?_, by show s.length - 1 = 0; rw [hlen]; simp,
        ?_, s.root, s.root, ?_, ?_, rfl, rfl⟩
      · intro p hp
        cases hp
      · show (hupd _ n _ s.root).value = none
        rw [hupd_other _ _ _ _ hrn, hupd_same]
        show (hupd _ s.root _ s.root).value = none
        rw [hupd_same]
        show (hupd _ n _ s.root).value = none
        rw [hupd_other _ _ _ _ hrn]
        exact hrootval
      · show (hupd _ n _ s.root).next = some s.root
        rw [hupd_other _ _ _ _ hrn, hupd_same]
        show (hupd _ s.root _ s.root).next = some s.root
        rw [hupd_same]
      · show (hupd _ n _ s.root).prev = some s.root
        rw [hupd_other _ _ _ _ hrn, hupd_same]
    · obtain ⟨y, rest2, hrdec⟩ : ∃ y rest2, rest = y :: rest2 :=
        ⟨rest.head hr0, rest.tail, (List.head_cons_tail rest hr0).symm⟩
      obtain ⟨g1, gv⟩ := y
      subst hrdec
      obtain ⟨hc2, hprevg, hvalg, nn3, hnextg, htail2⟩ := htail
      rw [← hc2] at hprevg hvalg hnextg htail2
      have hnn2_mem : nn2 ∈ ((n, fv) :: (g1, gv) :: rest2).map Prod.fst := by
        rw [hc2]
        simp
      have hnn2_root : nn2 ≠ s.root := by
        intro e
        rw [e] at hnn2_mem
        exact hrootnotin hnn2_mem
      have hrnn2 : s.root ≠ nn2 := fun e => hnn2_root e.symm
      have hnd1 : (((n, fv) :: (g1, gv) :: rest2).map Prod.fst).Nodup :=
        (List.nodup_cons.mp hnd).2
      have hn_notin : n ∉ ((g1, gv) :: rest2).map Prod.fst := by
        have h2 : (n :: ((g1, gv) :: rest2).map Prod.fst).Nodup := by
          simpa using hnd1
        exact (List.nodup_cons.mp h2).1
      have hnn2_n : nn2 ≠ n := by
        intro e
        apply hn_notin
        rw [← e, hc2]
        simp
      have hnnn2 : n ≠ nn2 := fun e => hnn2_n e.symm
      have hlast_mem : last ∈ ((g1, gv) :: rest2).map Prod.fst := by
        have h5 : last ∈ ((nn2, gv) :: rest2).map Prod.fst :=
          seg_last_mem _ n nn2 last s.root
            ⟨rfl, hprevg, hvalg, nn3, hnextg, htail2⟩ (List.cons_ne_nil _ _)
        rw [← hc2]
        exact h5
      have hlast_root : last ≠ s.root := by
        intro e
        apply hrootnotin
        rw [← e]
        exact List.mem_cons_of_mem _ hlast_mem
      have hlast_n : last ≠ n := by
        intro e
        apply hn_notin
        rw [← e]
        exact hlast_mem
      refine ⟨hroot, ?_, ?_, by show s.length - 1 = _; rw [hlen]; simp,
        ?_, nn2, last, ?_, ?_, ?_⟩
      · have h2 : (s.root :: ((g1, gv) :: rest2).map Prod.fst).Nodup := by
          refine List.nodup_cons.mpr ⟨?_, ?_⟩
          · intro hmem
            exact hrootnotin (List.mem_cons_of_mem _ hmem)
          · have h3 : (n :: ((g1, gv) :: rest2).map Prod.fst).Nodup := by
              simpa using hnd1
            exact (List.nodup_cons.mp h3).2
        exact h2
      · intro p hp
        exact hbound p (List.mem_cons_of_mem _ hp)
      · show (hupd _ n _ s.root).value = none
        rw [hupd_other _ _ _ _ hrn, hupd_other _ _ _ _ hrnn2, hupd_same]
        show (hupd _ n _ s.root).value = none
        rw [hupd_other _ _ _ _ hrn]
        exact hrootval
      · show (hupd _ n _ s.root).next = some nn2
        rw [hupd_other _ _ _ _ hrn, hupd_other _ _ _ _ hrnn2, hupd_same]
      · show (hupd _ n _ s.root).prev = some last
        rw [hupd_other _ _ _ _ hrn, hupd_other _ _ _ _ hrnn2, hupd_same]
        show (hupd _ n _ s.root).prev = some last
        rw [hupd_other _ _ _ _ hrn]
        exact hrprev
      · rw [← hc2]
        apply seg_set_head_prev nn2 gv rest2 n s.root nn2 last s.root
          ?hseg2 ?hag ?hval ?hnext ?hprev
        case hseg2 =>
          exact ⟨rfl, hprevg, hvalg, nn3, hnextg, htail2⟩
        case hag =>
          intro x hx
          have hx_n : x.1 ≠ n := by
            intro e
            apply hn_notin
            rw [← e]
            exact List.mem_cons_of_mem _ (List.mem_map.mpr ⟨x, hx, rfl⟩)
          have hx_root : x.1 ≠ s.root := by
            intro e
            apply hrootnotin
            rw [← e]
            exact List.mem_cons_of_mem _
              (List.mem_cons_of_mem _ (List.mem_map.mpr ⟨x, hx, rfl⟩))
          have hx_nn2 : x.1 ≠ nn2 := by
            intro e
            have h3 : (nn2 :: rest2.map Prod.fst).Nodup := by
              have h4 := (List.nodup_cons.mp hnd1).2
              rw [← hc2] at h4
              simpa using h4
            have h5 := (List.nodup_cons.mp h3).1
            rw [← e] at h5
            exact h5 (List.mem_map.mpr ⟨x, hx, rfl⟩)
          rw [heap_of_mk]
          rw [hupd_other _ _ _ _ hx_n, hupd_other _ _ _ _ hx_nn2,
            hupd_other _ _ _ _ hx_root, hupd_other _ _ _ _ hx_n]
        case hval =>
          show (hupd _ n _ nn2).value = (s.heap nn2).value
          rw [hupd_other _ _ _ _ hnn2_n, hupd_same]
          show (hupd _ s.root _ nn2).value = (s.heap nn2).value
          rw [hupd_other _ _ _ _ hnn2_root, hupd_other _ _ _ _ hnn2_n]
        case hnext =>
          show (hupd _ n _ nn2).next = (s.heap nn2).next
          rw [hupd_other _ _ _ _ hnn2_n, hupd_same]
          show (hupd _ s.root _ nn2).next = (s.heap nn2).next
          rw [hupd_other _ _ _ _ hnn2_root, hupd_other _ _ _ _ hnn2_n]
        case hprev =>
          show (hupd _ n _ nn2).prev = some s.root
          rw [hupd_other _ _ _ _ hnn2_n, hupd_same]

theorem front_rep {α : Type} (s : LL α) (L : List (Nat × α))
    (h : RepLL s L) : LL.front s = (L.map Prod.snd).head? := by
  obtain ⟨hroot, hnd, hbound, hlen, hrootval, n, last, hrnext, hrprev, hseg⟩ := h
  by_cases hLne : L = []
  · subst hLne
    simp [LL.front, hlen]
  · obtain ⟨x, rest, hLdec⟩ : ∃ x rest, L = x :: rest :=
      ⟨L.head hLne, L.tail, (List.head_cons_tail L hLne).symm⟩
    obtain ⟨f1, fv⟩ := x
    subst hLdec
    obtain ⟨hc, hprevf1, hvalf1, nn2, hnextf1, htail⟩ := hseg
    have hne0 : ¬ s.length = 0 := by rw [hlen]; simp
    simp only [LL.front, if_neg hne0, hrnext]
    rw [hc, hvalf1]
    simp

theorem back_rep {α : Type} (s : LL α) (L : List (Nat × α))
    (h : RepLL s L) : LL.back s = (L.map Prod.snd).getLast? := by
  obtain ⟨hroot, hnd, hbound, hlen, hrootval, n, last, hrnext, hrprev, hseg⟩ := h
  by_cases hLne : L = []
  · subst hLne
    simp [LL.back, hlen]
  · obtain ⟨M, x, hLdec⟩ : ∃ M x, L = M ++ [x] :=
      ⟨L.dropLast, L.getLast hLne, (List.dropLast_append_getLast hLne).symm⟩
    obtain ⟨li, lv⟩ := x
    subst hLdec
    obtain ⟨q, d, hM, htl⟩ :=
      (seg_append M [(li, lv)] s.root n last s.root).mp hseg
    obtain ⟨hd, hprevli, hvalli, nn, hnextli, hlast, hrootnn⟩ := htl
    subst hlast
    have hne0 : ¬ s.length = 0 := by rw [hlen]; simp
    simp only [LL.back, if_neg hne0, hrprev]
    rw [hvalli]
    simp

theorem runOps_rep {α : Type} (ops : List (DequeOp α)) :
    ∀ (s : LL α) (L : List (Nat × α)), RepLL s L →
      ∃ s' L', runOps s ops = some (s', (specOps (L.map Prod.snd) ops).2) ∧
        RepLL s' L' ∧ L'.map Prod.snd = (specOps (L.map Prod.snd) ops).1 := by
  induction ops with
  | nil =>
      intro s L h
      exact ⟨s, L, rfl, h, rfl⟩
  | cons op rest ih =>
      intro s L h
      cases op with
      | pushB v =>
          obtain ⟨s1, hpb, hrep1⟩ := push_back_rep s L v h
          obtain ⟨s', L', hrun, hrep', hmap⟩ := ih s1 (L ++ [(s.fresh, v)]) hrep1
          have hms : (L ++ [(s.fresh, v)]).map Prod.snd
              = L.map Prod.snd ++ [v] := by simp
          rw [hms] at hrun hmap
          refine ⟨s', L', ?_, hrep', hmap⟩
          show (LL.push_back s v).bind (fun s2 => runOps s2 rest) = _
          rw [hpb]
          show runOps s1 rest = _
          rw [hrun]
          rfl
      | pushF v =>
          obtain ⟨s1, hpf, hrep1⟩ := push_front_rep s L v h
          obtain ⟨s', L', hrun, hrep', hmap⟩ := ih s1 ((s.fresh, v) :: L) hrep1
          refine ⟨s', L', ?_, hrep', hmap⟩
          show (LL.push_front s v).bind (fun s2 => runOps s2 rest) = _
          rw [hpf]
          show runOps s1 rest = _
          rw [hrun]
          rfl
      | popB =>
          obtain ⟨s1, hpop, hrep1⟩ := pop_back_rep s L h
          obtain ⟨s', L', hrun, hrep', hmap⟩ := ih s1 L.dropLast hrep1
          have hms : L.dropLast.map Prod.snd = (L.map Prod.snd).dropLast :=
            List.map_dropLast Prod.snd L
          rw [hms] at hrun hmap
          refine ⟨s', L', ?_, hrep', hmap⟩
          show (LL.pop_back s).bind (fun r =>
            (runOps r.2 rest).map (fun q2 => (q2.1, r.1 :: q2.2))) = _
          rw [hpop]
          show (runOps s1 rest).map
            (fun q2 => (q2.1, (L.map Prod.snd).getLast? :: q2.2)) = _
          rw [hrun]
          rfl
      | popF =>
          obtain ⟨s1, hpop, hrep1⟩ := pop_front_rep s L h
          obtain ⟨s', L', hrun, hrep', hmap⟩ := ih s1 L.tail hrep1
          have hms : L.tail.map Prod.snd = (L.map Prod.snd).tail :=
            List.map_tail Prod.snd L
          rw [hms] at hrun hmap
          refine ⟨s', L', ?_, hrep', hmap⟩
          show (LL.pop_front s).bind (fun r =>
            (runOps r.2 rest).map (fun q2 => (q2.1, r.1 :: q2.2))) = _
          rw [hpop]
          show (runOps s1 rest).map
            (fun q2 => (q2.1, (L.map Prod.snd).head? :: q2.2)) = _
          rw [hrun]
          rfl

theorem specOps_length {α : Type} (ops : List (DequeOp α)) :
    ∀ m : List α,
      (specOps m ops).1.length + popSuccessCount (specOps m ops).2
        = m.length + pushCount ops := by
  induction ops with
  | nil => intro m; simp [specOps, popSuccessCount, pushCount]
  | cons op rest ih =>
      intro m
      cases op with
      | pushB v =>
          simp only [specOps, pushCount]
          rw [ih (m ++ [v])]
          simp
          omega
      | pushF v =>
          simp only [specOps, pushCount]
          rw [ih (v :: m)]
          simp
          omega
      | popB =>
          simp only [specOps, pushCount, popSuccessCount, List.countP_cons]
          cases m with
          | nil =>
              have := ih ([] : List α)
              simp only [popSuccessCount] at this
              simp [this]
          | cons a t =>
              have hthis := ih ((a :: t).dropLast)
              simp only [popSuccessCount] at hthis
              have hs : ((a :: t).getLast?).isSome = true := by
                simp [List.getLast?_isSome]
              have hdl : (a :: t).dropLast.length = t.length := by
                simp [List.length_dropLast]
              simp only [hs, List.length_cons, if_true]
              omega
      | popF =>
          simp only [specOps, pushCount, popSuccessCount, List.countP_cons]
          cases m with
          | nil =>
              have := ih ([] : List α)
              simp only [popSuccessCount] at this
              simp [this]
          | cons a t =>
              have := ih t
              simp only [popSuccessCount] at this
              simp
              omega

/-- C4: for every sequence of `push_back`/`push_front`/`pop_back`/
`pop_front` starting from a fresh container, no operation panics (the whole
run produces a result, and popping or inspecting an empty container yields
`none`, never a fault), the pop results and final state agree with the
abstract deque, `len()` equals the abstract sequence's length — i.e. the
number of pushes minus the number of successful pops — and `front()` /
`back()` are the two ends of the abstract sequence (the oldest and newest
surviving entries in queue order). -/
theorem claim4_container {α : Type} (ops : List (DequeOp α)) :
    ∃ s' : LL α,
      runOps LL.new ops = some (s', (specOps [] ops).2) ∧
      s'.length = (specOps ([] : List α) ops).1.length ∧
      LL.front s' = (specOps ([] : List α) ops).1.head? ∧
      LL.back s' = (specOps ([] : List α) ops).1.getLast? ∧
      (specOps ([] : List α) ops).1.length
          + popSuccessCount (specOps ([] : List α) ops).2
        = pushCount ops := by
  obtain ⟨s', L', hrun, hrep', hmap⟩ := runOps_rep ops LL.new [] repLL_new
  simp only [List.map_nil] at hrun hmap
  refine ⟨s', hrun, ?_, ?_, ?_, ?_⟩
  · have hl := hrep'.2.2.2.1
    rw [hl, ← hmap, List.length_map]
  · rw [front_rep s' L' hrep', hmap]
  · rw [back_rep s' L' hrep', hmap]
  · simpa using specOps_length ops []

theorem hupd4_other {α : Type} (h : Nat → Cell α) (i1 i2 i3 i4 j : Nat)
    (f1 f2 f3 f4 : Cell α → Cell α)
    (h1 : j ≠ i1) (h2 : j ≠ i2) (h3 : j ≠ i3) (h4 : j ≠ i4) :
    hupd (hupd (hupd (hupd h i1 f1) i2 f2) i3 f3) i4 f4 j = h j := by
  rw [hupd_other _ _ _ _ h4, hupd_other _ _ _ _ h3, hupd_other _ _ _ _ h2,
    hupd_other _ _ _ _ h1]

theorem collect_root {α : Type} (s : LL α) (fuel : Nat) :
    LL.collect s (fuel + 1) (some s.root) = [] := by
  rw [LL.collect, if_pos rfl]

theorem hupd_proj_value {α : Type} (h : Nat → Cell α) (i : Nat)
    (f : Cell α → Cell α) (hf : ∀ c, (f c).value = c.value) (j : Nat) :
    (hupd h i f j).value = (h j).value := by
  by_cases e : j = i
  · subst e
    rw [hupd_same]
    exact hf _
  · rw [hupd_other _ _ _ _ e]

theorem hupd_proj_next {α : Type} (h : Nat → Cell α) (i : Nat)
    (f : Cell α → Cell α) (hf : ∀ c, (f c).next = c.next) (j : Nat) :
    (hupd h i f j).next = (h j).next := by
  by_cases e : j = i
  · subst e
    rw [hupd_same]
    exact hf _
  · rw [hupd_other _ _ _ _ e]

theorem hupd_proj_prev {α : Type} (h : Nat → Cell α) (i : Nat)
    (f : Cell α → Cell α) (hf : ∀ c, (f c).prev = c.prev) (j : Nat) :
    (hupd h i f j).prev = (h j).prev := by
  by_cases e : j = i
  · subst e
    rw [hupd_same]
    exact hf _
  · rw [hupd_other _ _ _ _ e]

theorem chainCursor_eq_of_seg {α : Type} (s : LL α) (B : List (Nat × α))
    (q d last : Nat) (hs : seg s.heap q d B last s.root) :
    chainCursor s B = d := by
  cases B with
  | nil => exact hs.2
  | cons x rest =>
      obtain ⟨i, v⟩ := x
      exact hs.1.symm

theorem chainCursor_append_ne {α : Type} (s : LL α) (X Y : List (Nat × α))
    (hX : X ≠ []) : chainCursor s (X ++ Y) = chainCursor s X := by
  cases X with
  | nil => exact absurd rfl hX
  | cons x rest => rfl

theorem chainCursor_root_eq {α : Type} (s s' : LL α) (h : s'.root = s.root)
    (B : List (Nat × α)) : chainCursor s' B = chainCursor s B := by
  cases B with
  | nil => exact h
  | cons x rest => rfl

theorem insert_rep {α : Type} (s : LL α) (C1 C2 : List (Nat × α)) (v : α)
    (h : RepLL s (C1 ++ C2)) :
    ∃ s', LL.insertBefore s (chainCursor s C2) v = some s' ∧
      s'.root = s.root ∧ s'.fresh = s.fresh + 1 ∧
      RepLL s' (C1 ++ (s.fresh, v) :: C2) := by
  obtain ⟨hroot, hnd, hbound, hlen, hrootval, n0, lastG, hrnext, hrprev, hsegAll⟩ := h
  obtain ⟨q2, d2, hseg1, hseg2⟩ :=
    (seg_append C1 C2 s.root n0 lastG s.root).mp hsegAll
  have hcur : chainCursor s C2 = d2 := chainCursor_eq_of_seg s C2 q2 d2 lastG hseg2
  have hrf : s.root ≠ s.fresh := Nat.ne_of_lt hroot
  have hroot_notmem : s.root ∉ (C1 ++ C2).map Prod.fst := (List.nodup_cons.mp hnd).1
  have hndtail : ((C1 ++ C2).map Prod.fst).Nodup := (List.nodup_cons.mp hnd).2
  have hnd2 : (C1.map Prod.fst ++ C2.map Prod.fst).Nodup := by
    rw [← List.map_append]
    exact hndtail
  have hdisjids : ∀ a ∈ C1.map Prod.fst, a ∉ C2.map Prod.fst :=
    fun a ha hb => (List.nodup_append.mp hnd2).2.2 ha hb
  have hC1root : ∀ a ∈ C1.map Prod.fst, a ≠ s.root := by
    intro a ha e
    subst e
    exact hroot_notmem (by rw [List.map_append]; exact List.mem_append_left _ ha)
  have hC2root : ∀ a ∈ C2.map Prod.fst, a ≠ s.root := by
    intro a ha e
    subst e
    exact hroot_notmem (by rw [List.map_append]; exact List.mem_append_right _ ha)
  have hC1fresh : ∀ a ∈ C1.map Prod.fst, a ≠ s.fresh := by
    intro a ha
    obtain ⟨p, hp, hpe⟩ := List.mem_map.mp ha
    have := hbound p (List.mem_append_left _ hp)
    omega
  have hC2fresh : ∀ a ∈ C2.map Prod.fst, a ≠ s.fresh := by
    intro a ha
    obtain ⟨p, hp, hpe⟩ := List.mem_map.mp ha
    have := hbound p (List.mem_append_right _ hp)
    omega
  have hd2or : d2 = s.root ∨ d2 ∈ C2.map Prod.fst := by
    by_cases hc2e : C2 = []
    · subst hc2e
      exact Or.inl hseg2.2.symm
    · obtain ⟨y, r2, hC2eq⟩ := List.exists_cons_of_ne_nil hc2e
      obtain ⟨i2, v2⟩ := y
      have hs2 := hseg2
      rw [hC2eq] at hs2
      refine Or.inr ?_
      rw [hC2eq, hs2.1]
      simp
  have hq2or : q2 = s.root ∨ q2 ∈ C1.map Prod.fst := by
    by_cases hc1e : C1 = []
    · subst hc1e
      exact Or.inl hseg1.1
    · exact Or.inr (seg_last_mem C1 s.root n0 q2 d2 hseg1 hc1e)
  have hd2lt : d2 < s.fresh := by
    rcases hd2or with he | hm
    · rw [he]; exact hroot
    · obtain ⟨p, hp, hpe⟩ := List.mem_map.mp hm
      have := hbound p (List.mem_append_right _ hp)
      omega
  have hq2lt : q2 < s.fresh := by
    rcases hq2or with he | hm
    · rw [he]; exact hroot
    · obtain ⟨p, hp, hpe⟩ := List.mem_map.mp hm
      have := hbound p (List.mem_append_left _ hp)
      omega
  have hd2f : d2 ≠ s.fresh := Nat.ne_of_lt hd2lt
  have hq2f : q2 ≠ s.fresh := Nat.ne_of_lt hq2lt
  have hfd2 : s.fresh ≠ d2 := Ne.symm hd2f
  have hfq2 : s.fresh ≠ q2 := Ne.symm hq2f
  have hq2C2 : q2 ∉ C2.map Prod.fst := by
    rcases hq2or with he | hm
    · intro hmem
      exact hC2root q2 hmem he
    · exact hdisjids q2 hm
  have hC1d2 : ∀ a ∈ C1.map Prod.fst, a ≠ d2 := by
    intro a ha e
    subst e
    rcases hd2or with h1 | h2
    · exact hC1root a ha h1
    · exact hdisjids a ha h2
  have hprev_d2 : (s.heap d2).prev = some q2 := by
    by_cases hc2e : C2 = []
    · subst hc2e
      obtain ⟨h1, h2⟩ := hseg2
      rw [← h2, hrprev, h1]
    · obtain ⟨y, r2, hC2eq⟩ := List.exists_cons_of_ne_nil hc2e
      obtain ⟨i2, v2⟩ := y
      have hs2 := hseg2
      rw [hC2eq] at hs2
      obtain ⟨hc, hpi, _⟩ := hs2
      rw [hc]
      exact hpi
  have hscrut : ((hupd s.heap s.fresh
      (fun _ => (⟨none, none, some v⟩ : Cell α))) d2).prev = some q2 := by
    rw [hupd_other _ _ _ _ hd2f]
    exact hprev_d2
  have hfull : LL.insertBefore s d2 v = some
      { heap :=
          hupd (hupd (hupd (hupd s.heap s.fresh
                  (fun _ => (⟨none, none, some v⟩ : Cell α))) s.fresh
                (fun c => { c with prev := some q2, next := some d2 }))
              q2 (fun c => { c with next := some s.fresh })) d2
            (fun c => { c with prev := some s.fresh }),
        fresh := s.fresh + 1, root := s.root, length := s.length + 1 } := by
    have h1 := insertBeforeLink_eq
      { s with
        heap := hupd s.heap s.fresh (fun _ => (⟨none, none, some v⟩ : Cell α)),
        fresh := s.fresh + 1 }
      d2 s.fresh q2 hscrut
    exact h1
  rw [hcur]
  refine ⟨_, hfull, rfl, rfl, ?_⟩
  set G := hupd (hupd (hupd (hupd s.heap s.fresh
          (fun _ => (⟨none, none, some v⟩ : Cell α))) s.fresh
        (fun c => { c with prev := some q2, next := some d2 }))
      q2 (fun c => { c with next := some s.fresh })) d2
    (fun c => { c with prev := some s.fresh }) with hG
  have hG_other : ∀ j, j ≠ s.fresh → j ≠ q2 → j ≠ d2 → G j = s.heap j := by
    intro j h1 h2 h3
    rw [hG]
    exact hupd4_other s.heap s.fresh s.fresh q2 d2 j _ _ _ _ h1 h1 h2 h3
  have hG_fresh : G s.fresh = ⟨some q2, some d2, some v⟩ := by
    rw [hG]
    rw [hupd_other _ _ _ _ hfd2, hupd_other _ _ _ _ hfq2, hupd_same, hupd_same]
  have hGvalue : ∀ j, j ≠ s.fresh → (G j).value = (s.heap j).value := by
    intro j hj
    rw [hG]
    rw [hupd_proj_value _ d2 (fun c => { c with prev := some s.fresh })
      (fun c => rfl) j]
    rw [hupd_proj_value _ q2 (fun c => { c with next := some s.fresh })
      (fun c => rfl) j]
    rw [hupd_proj_value _ s.fresh
      (fun c => { c with prev := some q2, next := some d2 }) (fun c => rfl) j]
    rw [hupd_other _ _ _ _ hj]
  have hvalroot : (G s.root).value = none := (hGvalue s.root hrf).trans hrootval
  have hndnew : (s.root :: (C1 ++ (s.fresh, v) :: C2).map Prod.fst).Nodup := by
    rw [List.map_append, List.map_cons, List.nodup_cons]
    constructor
    · intro hmem
      rcases List.mem_append.mp hmem with h1 | h2
      · exact hC1root s.root h1 rfl
      · rcases List.mem_cons.mp h2 with h3 | h4
        · exact hrf h3
        · exact hC2root s.root h4 rfl
    · rw [List.nodup_middle, List.nodup_cons]
      constructor
      · intro hmem
        rcases List.mem_append.mp hmem with h1 | h2
        · exact hC1fresh s.fresh h1 rfl
        · exact hC2fresh s.fresh h2 rfl
      · exact hnd2
  have hboundnew : ∀ p ∈ C1 ++ (s.fresh, v) :: C2, p.1 < s.fresh + 1 := by
    intro p hp
    rcases List.mem_append.mp hp with h1 | h2
    · have := hbound p (List.mem_append_left _ h1)
      omega
    · rcases List.mem_cons.mp h2 with h3 | h4
      · subst h3
        exact Nat.lt_succ_self s.fresh
      · have := hbound p (List.mem_append_right _ h4)
        omega
  have hlennew : s.length + 1 = (C1 ++ (s.fresh, v) :: C2).length := by
    simp only [List.length_append, List.length_cons] at hlen ⊢
    omega
  have hC1side : ∃ n2, (G s.root).next = some n2 ∧ seg G s.root n2 C1 q2 s.fresh := by
    by_cases hc1e : C1 = []
    · subst hc1e
      obtain ⟨hq2eq, hd2n0⟩ := hseg1
      refine ⟨s.fresh, ?_, hq2eq, rfl⟩
      rw [hG]
      rw [hupd_proj_next _ d2 (fun c => { c with prev := some s.fresh })
        (fun c => rfl) s.root]
      rw [hq2eq, hupd_same]
    · have hq2mem : q2 ∈ C1.map Prod.fst :=
        seg_last_mem C1 s.root n0 q2 d2 hseg1 hc1e
      have hrq2 : s.root ≠ q2 := Ne.symm (hC1root q2 hq2mem)
      have hq2d2 : q2 ≠ d2 := hC1d2 q2 hq2mem
      refine ⟨n0, ?_, ?_⟩
      · rw [hG]
        rw [hupd_proj_next _ d2 (fun c => { c with prev := some s.fresh })
          (fun c => rfl) s.root]
        rw [hupd_other _ _ _ _ hrq2, hupd_other _ _ _ _ hrf,
          hupd_other _ _ _ _ hrf]
        exact hrnext
      · apply seg_set_last_next C1 s.root n0 q2 d2 s.fresh
          (List.nodup_append.mp hnd2).1 hc1e hseg1
        · intro x hx hxq
          rw [hG]
          have hx1 : x.1 ∈ C1.map Prod.fst := List.mem_map_of_mem _ hx
          exact hupd4_other s.heap s.fresh s.fresh q2 d2 x.1 _ _ _ _
            (hC1fresh x.1 hx1) (hC1fresh x.1 hx1) hxq (hC1d2 x.1 hx1)
        · rw [hG]
          rw [hupd_other _ _ _ _ hq2d2, hupd_same]
          show (hupd _ s.fresh _ q2).prev = (s.heap q2).prev
          rw [hupd_other _ _ _ _ hq2f, hupd_other _ _ _ _ hq2f]
        · rw [hG]
          rw [hupd_other _ _ _ _ hq2d2, hupd_same]
          show (hupd _ s.fresh _ q2).value = (s.heap q2).value
          rw [hupd_other _ _ _ _ hq2f, hupd_other _ _ _ _ hq2f]
        · rw [hG]
          rw [hupd_other _ _ _ _ hq2d2, hupd_same]
  have hC2side : ∃ last2, (G s.root).prev = some last2 ∧
      seg G s.fresh d2 C2 last2 s.root := by
    by_cases hc2e : C2 = []
    · subst hc2e
      obtain ⟨hlg, hrd2⟩ := hseg2
      refine ⟨s.fresh, ?_, rfl, hrd2⟩
      rw [hG, hrd2, hupd_same]
    · obtain ⟨y, r2, hC2eq⟩ := List.exists_cons_of_ne_nil hc2e
      obtain ⟨i2, v2⟩ := y
      have hs2b := hseg2
      rw [hC2eq] at hs2b
      have hc : d2 = i2 := hs2b.1
      have hd2memids : d2 ∈ C2.map Prod.fst := by
        rw [hC2eq, hc]
        simp
      have hq2d2 : q2 ≠ d2 := by
        intro e
        exact hq2C2 (by rw [e]; exact hd2memids)
      have hrD2 : s.root ≠ d2 := Ne.symm (hC2root d2 hd2memids)
      have hndC2 : (i2 :: r2.map Prod.fst).Nodup := by
        have h5 := (List.nodup_append.mp hnd2).2.1
        rw [hC2eq] at h5
        simpa using h5
      have hvd2 : (G d2).value = (s.heap d2).value := by
        rw [hG, hupd_same]
        show (hupd _ q2 _ d2).value = (s.heap d2).value
        rw [hupd_other _ _ _ _ (Ne.symm hq2d2), hupd_other _ _ _ _ hd2f,
          hupd_other _ _ _ _ hd2f]
      have hnd2cell : (G d2).next = (s.heap d2).next := by
        rw [hG, hupd_same]
        show (hupd _ q2 _ d2).next = (s.heap d2).next
        rw [hupd_other _ _ _ _ (Ne.symm hq2d2), hupd_other _ _ _ _ hd2f,
          hupd_other _ _ _ _ hd2f]
      have hpd2 : (G d2).prev = some s.fresh := by
        rw [hG, hupd_same]
      refine ⟨lastG, ?_, ?_⟩
      · rw [hG]
        rw [hupd_other _ _ _ _ hrD2]
        rw [hupd_proj_prev _ q2 (fun c => { c with next := some s.fresh })
          (fun c => rfl) s.root]
        rw [hupd_other _ _ _ _ hrf, hupd_other _ _ _ _ hrf]
        exact hrprev
      · rw [hC2eq]
        apply seg_set_head_prev i2 v2 r2 q2 s.fresh d2 lastG s.root hs2b
        · intro x hx
          rw [hG]
          have hxC2 : x.1 ∈ C2.map Prod.fst := by
            rw [hC2eq]
            exact List.mem_cons_of_mem _ (List.mem_map_of_mem _ hx)
          refine hupd4_other s.heap s.fresh s.fresh q2 d2 x.1 _ _ _ _
            (hC2fresh x.1 hxC2) (hC2fresh x.1 hxC2) ?_ ?_
          · intro e
            exact hq2C2 (by rw [← e]; exact hxC2)
          · intro e
            rw [hc] at e
            exact (List.nodup_cons.mp hndC2).1
              (by rw [← e]; exact List.mem_map_of_mem _ hx)
        · rw [← hc]
          exact hvd2
        · rw [← hc]
          exact hnd2cell
        · rw [← hc]
          exact hpd2
  obtain ⟨n2, hrn2, hsegC1G⟩ := hC1side
  obtain ⟨last2, hrp2, hsegC2G⟩ := hC2side
  have hmid : seg G q2 s.fresh ((s.fresh, v) :: C2) last2 s.root := by
    refine ⟨rfl, ?_, ?_, d2, ?_, hsegC2G⟩
    · rw [hG_fresh]
    · rw [hG_fresh]
    · rw [hG_fresh]
  have hsegNew : seg G s.root n2 (C1 ++ (s.fresh, v) :: C2) last2 s.root :=
    (seg_append C1 ((s.fresh, v) :: C2) s.root n2 last2 s.root).mpr
      ⟨q2, s.fresh, hsegC1G, hmid⟩
  exact ⟨Nat.lt_succ_of_lt hroot, hndnew, hboundnew, hlennew, hvalroot,
    n2, last2, hrn2, hrp2, hsegNew⟩

theorem erase_chain {α : Type} (s : LL α) (C1 C2 : List (Nat × α))
    (x : Nat × α) (h : RepLL s (C1 ++ x :: C2)) :
    ∃ s2, LL.erase s x.1 = (some x.2, s2) ∧ s2.root = s.root ∧
      (s2.heap x.1).value = none ∧
      (s2.heap x.1).next = some (chainCursor s C2) ∧
      ∃ n2 last2, seg s2.heap s.root n2 (C1 ++ C2) last2 s.root := by
  obtain ⟨hroot, hnd, hbound, hlen, hrootval, n0, lastG, hrnext, hrprev, hsegAll⟩ := h
  obtain ⟨xi, xv⟩ := x
  obtain ⟨q4, d4, hseg1, hsegx⟩ :=
    (seg_append C1 ((xi, xv) :: C2) s.root n0 lastG s.root).mp hsegAll
  obtain ⟨hd4, hxprev, hxval, n5, hxnext, hsegC2⟩ := hsegx
  have hcurC2 : chainCursor s C2 = n5 :=
    chainCursor_eq_of_seg s C2 xi n5 lastG hsegC2
  have hroot_notmem : s.root ∉ (C1 ++ (xi, xv) :: C2).map Prod.fst :=
    (List.nodup_cons.mp hnd).1
  have hxiroot : xi ≠ s.root := by
    intro e
    apply hroot_notmem
    rw [← e]
    simp
  have hndfull : (C1.map Prod.fst ++ xi :: C2.map Prod.fst).Nodup := by
    have h5 := (List.nodup_cons.mp hnd).2
    rw [List.map_append, List.map_cons] at h5
    exact h5
  have hmid := List.nodup_middle.mp hndfull
  have hxinotin : xi ∉ C1.map Prod.fst ++ C2.map Prod.fst :=
    (List.nodup_cons.mp hmid).1
  have hndC12 : (C1.map Prod.fst ++ C2.map Prod.fst).Nodup :=
    (List.nodup_cons.mp hmid).2
  have hxiC1 : xi ∉ C1.map Prod.fst :=
    fun hm => hxinotin (List.mem_append_left _ hm)
  have hxiC2 : xi ∉ C2.map Prod.fst :=
    fun hm => hxinotin (List.mem_append_right _ hm)
  have hdisj : ∀ a ∈ C1.map Prod.fst, a ∉ C2.map Prod.fst :=
    fun a ha hb => (List.nodup_append.mp hndC12).2.2 ha hb
  have hC1root : ∀ a ∈ C1.map Prod.fst, a ≠ s.root := by
    intro a ha e
    subst e
    exact hroot_notmem (by rw [List.map_append]; exact List.mem_append_left _ ha)
  have hC2root : ∀ a ∈ C2.map Prod.fst, a ≠ s.root := by
    intro a ha e
    subst e
    apply hroot_notmem
    rw [List.map_append, List.map_cons]
    exact List.mem_append_right _ (List.mem_cons_of_mem _ ha)
  have hq4or : q4 = s.root ∨ q4 ∈ C1.map Prod.fst := by
    by_cases hc1e : C1 = []
    · subst hc1e
      exact Or.inl hseg1.1
    · exact Or.inr (seg_last_mem C1 s.root n0 q4 d4 hseg1 hc1e)
  have hn5or : n5 = s.root ∨ n5 ∈ C2.map Prod.fst := by
    by_cases hc2e : C2 = []
    · subst hc2e
      exact Or.inl hsegC2.2.symm
    · obtain ⟨y, r2, hC2eq⟩ := List.exists_cons_of_ne_nil hc2e
      obtain ⟨j2, w2⟩ := y
      have hs2 := hsegC2
      rw [hC2eq] at hs2
      refine Or.inr ?_
      rw [hC2eq, hs2.1]
      simp
  have hq4xi : q4 ≠ xi := by
    rcases hq4or with he | hm
    · rw [he]
      exact Ne.symm hxiroot
    · intro e
      rw [e] at hm
      exact hxiC1 hm
  have hn5xi : n5 ≠ xi := by
    rcases hn5or with he | hm
    · rw [he]
      exact Ne.symm hxiroot
    · intro e
      rw [e] at hm
      exact hxiC2 hm
  have hq4C2 : q4 ∉ C2.map Prod.fst := by
    rcases hq4or with he | hm
    · intro hmem
      exact hC2root q4 hmem he
    · exact hdisj q4 hm
  have hn5C1 : n5 ∉ C1.map Prod.fst := by
    rcases hn5or with he | hm
    · intro hmem
      exact hC1root n5 hmem he
    · intro hmem
      exact hdisj n5 hmem hm
  have herase := erase_eq s xi q4 n5 xv hxval hxprev hxnext
  refine ⟨_, herase, rfl, ?_⟩
  set G2 := hupd (hupd (hupd (hupd s.heap xi
          (fun cc => { cc with prev := none, next := none })) q4
        (fun cc => { cc with next := some n5 })) n5
      (fun cc => { cc with prev := some q4 })) xi
    (fun cc =>
      { cc with prev := some q4, next := some n5, value := none }) with hG2
  have hG2xi : G2 xi = ⟨some q4, some n5, none⟩ := by
    rw [hG2, hupd_same]
  have hG2_other : ∀ j, j ≠ xi → j ≠ q4 → j ≠ n5 → G2 j = s.heap j := by
    intro j h1 h2 h3
    rw [hG2]
    exact hupd4_other s.heap xi q4 n5 xi j _ _ _ _ h1 h2 h3 h1
  have hC1side : ∃ n2, seg G2 s.root n2 C1 q4 n5 := by
    by_cases hc1e : C1 = []
    · subst hc1e
      exact ⟨n5, hseg1.1, rfl⟩
    · have hq4mem : q4 ∈ C1.map Prod.fst :=
        seg_last_mem C1 s.root n0 q4 d4 hseg1 hc1e
      have hq4n5 : q4 ≠ n5 := by
        intro e
        rw [e] at hq4mem
        exact hn5C1 hq4mem
      refine ⟨n0, ?_⟩
      apply seg_set_last_next C1 s.root n0 q4 d4 n5
        (List.nodup_append.mp hndC12).1 hc1e hseg1
      · intro y hy hyq
        have hy1 : y.1 ∈ C1.map Prod.fst := List.mem_map_of_mem _ hy
        refine hG2_other y.1 ?_ hyq ?_
        · intro e
          rw [e] at hy1
          exact hxiC1 hy1
        · intro e
          rw [e] at hy1
          exact hn5C1 hy1
      · rw [hG2]
        rw [hupd_other _ _ _ _ hq4xi, hupd_other _ _ _ _ hq4n5, hupd_same]
        show (hupd _ xi _ q4).prev = (s.heap q4).prev
        rw [hupd_other _ _ _ _ hq4xi]
      · rw [hG2]
        rw [hupd_other _ _ _ _ hq4xi, hupd_other _ _ _ _ hq4n5, hupd_same]
        show (hupd _ xi _ q4).value = (s.heap q4).value
        rw [hupd_other _ _ _ _ hq4xi]
      · rw [hG2]
        rw [hupd_other _ _ _ _ hq4xi, hupd_other _ _ _ _ hq4n5, hupd_same]
  have hC2side : ∃ last2, seg G2 q4 n5 C2 last2 s.root := by
    by_cases hc2e : C2 = []
    · subst hc2e
      exact ⟨q4, rfl, hsegC2.2⟩
    · obtain ⟨y, r2, hC2eq⟩ := List.exists_cons_of_ne_nil hc2e
      obtain ⟨j2, w2⟩ := y
      have hs2b := hsegC2
      rw [hC2eq] at hs2b
      have hj2 : n5 = j2 := hs2b.1
      have hn5mem : n5 ∈ C2.map Prod.fst := by
        rw [hC2eq, hj2]
        simp
      have hn5q4 : n5 ≠ q4 := by
        intro e
        rw [e] at hn5mem
        exact hq4C2 hn5mem
      have hndC2 : (j2 :: r2.map Prod.fst).Nodup := by
        have h5 := (List.nodup_append.mp hndC12).2.1
        rw [hC2eq] at h5
        simpa using h5
      have hvn5 : (G2 n5).value = (s.heap n5).value := by
        rw [hG2]
        rw [hupd_other _ _ _ _ hn5xi, hupd_same]
        show (hupd _ q4 _ n5).value = (s.heap n5).value
        rw [hupd_other _ _ _ _ hn5q4, hupd_other _ _ _ _ hn5xi]
      have hnn5 : (G2 n5).next = (s.heap n5).next := by
        rw [hG2]
        rw [hupd_other _ _ _ _ hn5xi, hupd_same]
        show (hupd _ q4 _ n5).next = (s.heap n5).next
        rw [hupd_other _ _ _ _ hn5q4, hupd_other _ _ _ _ hn5xi]
      have hpn5 : (G2 n5).prev = some q4 := by
        rw [hG2]
        rw [hupd_other _ _ _ _ hn5xi, hupd_same]
      refine ⟨lastG, ?_⟩
      rw [hC2eq]
      apply seg_set_head_prev j2 w2 r2 xi q4 n5 lastG s.root hs2b
      · intro y hy
        have hy1 : y.1 ∈ C2.map Prod.fst := by
          rw [hC2eq]
          exact List.mem_cons_of_mem _ (List.mem_map_of_mem _ hy)
        refine hG2_other y.1 ?_ ?_ ?_
        · intro e
          rw [e] at hy1
          exact hxiC2 hy1
        · intro e
          rw [e] at hy1
          exact hq4C2 hy1
        · intro e
          rw [hj2] at e
          exact (List.nodup_cons.mp hndC2).1
            (by rw [← e]; exact List.mem_map_of_mem _ hy)
      · rw [← hj2]
        exact hvn5
      · rw [← hj2]
        exact hnn5
      · rw [← hj2]
        exact hpn5
  obtain ⟨n2, hsegC1G⟩ := hC1side
  obtain ⟨last2, hsegC2G⟩ := hC2side
  refine ⟨?_, ?_, n2, last2, ?_⟩
  · show (G2 xi).value = none
    rw [hG2xi]
  · show (G2 xi).next = some (chainCursor s C2)
    rw [hG2xi, hcurC2]
  · exact (seg_append C1 C2 s.root n2 last2 s.root).mpr
      ⟨q4, n5, hsegC1G, hsegC2G⟩

/-- C2: a traversal of the node container that was started before a
structural mutation (modelled by the cursor of `Iter::next` being parked at
the start of the not-yet-visited chain `B`, the chain `A` already visited)
(1) still yields exactly `B`'s values if nothing is mutated; (2) visits a
node inserted anywhere strictly after the cursor — before any link of the
unvisited chain past at least one remaining element, or at the very end —
exactly once, in chain order; (3) never visits a node inserted at the
cursor or before it (before a link of the visited prefix); and (4) silently
skips (without error, and without yielding the erased value) any position
vacated by `erase`, whether the erased link lies ahead of the cursor, at
the cursor, or behind it. -/
theorem claim2_traversal {α : Type} (s : LL α) (A B : List (Nat × α)) (v : α)
    (h : RepLL s (A ++ B)) :
    LL.collect s (B.length + 1) (some (chainCursor s B)) = B.map Prod.snd ∧
    (∀ B1 B2, B = B1 ++ B2 → B1 ≠ [] →
      ∃ s', LL.insertBefore s (chainCursor s B2) v = some s' ∧
        LL.collect s' (B.length + 2) (some (chainCursor s B)) =
          B1.map Prod.snd ++ v :: B2.map Prod.snd) ∧
    (∃ s', LL.insertBefore s (chainCursor s B) v = some s' ∧
      LL.collect s' (B.length + 2) (some (chainCursor s B)) =
        B.map Prod.snd) ∧
    (∀ A1 A2, A = A1 ++ A2 → A2 ≠ [] →
      ∃ s', LL.insertBefore s (chainCursor s A2) v = some s' ∧
        LL.collect s' (B.length + 2) (some (chainCursor s B)) =
          B.map Prod.snd) ∧
    (∀ B1 y B2, B = B1 ++ y :: B2 →
      (LL.erase s y.1).1 = some y.2 ∧
        LL.collect (LL.erase s y.1).2 (B.length + 2)
          (some (chainCursor s B)) = B1.map Prod.snd ++ B2.map Prod.snd) ∧
    (∀ A1 y A2, A = A1 ++ y :: A2 →
      (LL.erase s y.1).1 = some y.2 ∧
        LL.collect (LL.erase s y.1).2 (B.length + 2)
          (some (chainCursor s B)) = B.map Prod.snd) := by
  have hndh : (s.root :: (A ++ B).map Prod.fst).Nodup := h.2.1
  have hbase : LL.collect s (B.length + 1) (some (chainCursor s B)) =
      B.map Prod.snd := by
    obtain ⟨hroot, hnd, hbound, hlen, hrootval, n0, lastG, hrnext, hrprev,
      hsegAll⟩ := h
    obtain ⟨q, d, hsegA, hsegB⟩ :=
      (seg_append A B s.root n0 lastG s.root).mp hsegAll
    have hcur : chainCursor s B = d := chainCursor_eq_of_seg s B q d lastG hsegB
    have hrootB : s.root ∉ B.map Prod.fst := by
      intro hm
      apply (List.nodup_cons.mp hnd).1
      rw [List.map_append]
      exact List.mem_append_right _ hm
    rw [hcur]
    exact collect_of_seg s B q d lastG (B.length + 1) hsegB hrootB
      (Nat.lt_succ_self _)
  have hpart1 : ∀ B1 B2, B = B1 ++ B2 → B1 ≠ [] →
      ∃ s', LL.insertBefore s (chainCursor s B2) v = some s' ∧
        LL.collect s' (B.length + 2) (some (chainCursor s B)) =
          B1.map Prod.snd ++ v :: B2.map Prod.snd := by
    intro B1 B2 hB hB1ne
    have h' : RepLL s ((A ++ B1) ++ B2) := by
      rw [List.append_assoc, ← hB]
      exact h
    obtain ⟨s', hins, hroot', hfresh', hrep'⟩ := insert_rep s (A ++ B1) B2 v h'
    refine ⟨s', hins, ?_⟩
    obtain ⟨hroot2, hnd', hbound', hlen', hval', n', last', hn', hp', hseg'⟩ :=
      hrep'
    rw [List.append_assoc] at hseg'
    obtain ⟨q'', d'', hsA'', hsB''⟩ :=
      (seg_append A (B1 ++ (s.fresh, v) :: B2) s'.root n' last' s'.root).mp
        hseg'
    have hcur'' : chainCursor s' (B1 ++ (s.fresh, v) :: B2) = d'' :=
      chainCursor_eq_of_seg s' _ q'' d'' last' hsB''
    have hcurB : chainCursor s B = d'' := by
      rw [hB, chainCursor_append_ne s B1 B2 hB1ne]
      rw [chainCursor_append_ne s' B1 ((s.fresh, v) :: B2) hB1ne] at hcur''
      rw [chainCursor_root_eq s s' hroot' B1] at hcur''
      exact hcur''
    have hrootB'' : s'.root ∉ (B1 ++ (s.fresh, v) :: B2).map Prod.fst := by
      intro hm
      apply (List.nodup_cons.mp hnd').1
      rw [List.map_append] at hm
      rw [List.map_append]
      rcases List.mem_append.mp hm with h1 | h2
      · refine List.mem_append_left _ ?_
        rw [List.map_append]
        exact List.mem_append_right _ h1
      · exact List.mem_append_right _ h2
    have hfuel : (B1 ++ (s.fresh, v) :: B2).length < B.length + 2 := by
      rw [hB]
      simp only [List.length_append, List.length_cons]
      omega
    have hcoll := collect_of_seg s' (B1 ++ (s.fresh, v) :: B2) q'' d'' last'
      (B.length + 2) hsB'' hrootB'' hfuel
    rw [hcurB, hcoll]
    simp
  have hpart2a : ∃ s', LL.insertBefore s (chainCursor s B) v = some s' ∧
      LL.collect s' (B.length + 2) (some (chainCursor s B)) =
        B.map Prod.snd := by
    obtain ⟨s', hins, hroot', hfresh', hrep'⟩ := insert_rep s A B v h
    refine ⟨s', hins, ?_⟩
    obtain ⟨hroot2, hnd', hbound', hlen', hval', n', last', hn', hp', hseg'⟩ :=
      hrep'
    have hre : A ++ (s.fresh, v) :: B = (A ++ [(s.fresh, v)]) ++ B :=
      List.append_cons A (s.fresh, v) B
    rw [hre] at hseg'
    obtain ⟨q'', d'', hsA'', hsB''⟩ :=
      (seg_append (A ++ [(s.fresh, v)]) B s'.root n' last' s'.root).mp hseg'
    have hcur'' : chainCursor s' B = d'' :=
      chainCursor_eq_of_seg s' B q'' d'' last' hsB''
    have hcurB : chainCursor s B = d'' := by
      rw [← hcur'']
      exact (chainCursor_root_eq s s' hroot' B).symm
    have hrootB'' : s'.root ∉ B.map Prod.fst := by
      intro hm
      apply (List.nodup_cons.mp hnd').1
      rw [List.map_append, List.map_cons]
      exact List.mem_append_right _ (List.mem_cons_of_mem _ hm)
    rw [hcurB]
    exact collect_of_seg s' B q'' d'' last' (B.length + 2) hsB'' hrootB''
      (by omega)
  have hpart2b : ∀ A1 A2, A = A1 ++ A2 → A2 ≠ [] →
      ∃ s', LL.insertBefore s (chainCursor s A2) v = some s' ∧
        LL.collect s' (B.length + 2) (some (chainCursor s B)) =
          B.map Prod.snd := by
    intro A1 A2 hA hA2ne
    have h' : RepLL s (A1 ++ (A2 ++ B)) := by
      rw [← List.append_assoc, ← hA]
      exact h
    obtain ⟨s', hins, hroot', hfresh', hrep'⟩ :=
      insert_rep s A1 (A2 ++ B) v h'
    rw [chainCursor_append_ne s A2 B hA2ne] at hins
    refine ⟨s', hins, ?_⟩
    obtain ⟨hroot2, hnd', hbound', hlen', hval', n', last', hn', hp', hseg'⟩ :=
      hrep'
    have hre : A1 ++ (s.fresh, v) :: (A2 ++ B) =
        (A1 ++ (s.fresh, v) :: A2) ++ B := by
      simp
    rw [hre] at hseg'
    obtain ⟨q'', d'', hsA'', hsB''⟩ :=
      (seg_append (A1 ++ (s.fresh, v) :: A2) B s'.root n' last' s'.root).mp
        hseg'
    have hcur'' : chainCursor s' B = d'' :=
      chainCursor_eq_of_seg s' B q'' d'' last' hsB''
    have hcurB : chainCursor s B = d'' := by
      rw [← hcur'']
      exact (chainCursor_root_eq s s' hroot' B).symm
    have hrootB'' : s'.root ∉ B.map Prod.fst := by
      intro hm
      apply (List.nodup_cons.mp hnd').1
      rw [List.map_append, List.map_cons]
      refine List.mem_append_right _ (List.mem_cons_of_mem _ ?_)
      rw [List.map_append]
      exact List.mem_append_right _ hm
    rw [hcurB]
    exact collect_of_seg s' B q'' d'' last' (B.length + 2) hsB'' hrootB''
      (by omega)
  have hpart3a : ∀ B1 y B2, B = B1 ++ y :: B2 →
      (LL.erase s y.1).1 = some y.2 ∧
        LL.collect (LL.erase s y.1).2 (B.length + 2)
          (some (chainCursor s B)) = B1.map Prod.snd ++ B2.map Prod.snd := by
    intro B1 y B2 hB
    have h' : RepLL s ((A ++ B1) ++ y :: B2) := by
      rw [List.append_assoc, ← hB]
      exact h
    obtain ⟨s2, herase, hroot2, hval2, hnext2, n2, last2, hseg2⟩ :=
      erase_chain s (A ++ B1) B2 y h'
    refine ⟨by rw [herase], ?_⟩
    rw [herase]
    by_cases hB1e : B1 = []
    · subst hB1e
      rw [List.nil_append] at hB
      have hcurB : chainCursor s B = y.1 := by
        rw [hB]
        rfl
      have hyroot : ¬ y.1 = s2.root := by
        rw [hroot2]
        intro e
        apply (List.nodup_cons.mp hndh).1
        rw [← e, List.map_append]
        refine List.mem_append_right _ ?_
        rw [hB]
        exact List.mem_map_of_mem _ (List.mem_cons_self _ _)
      rw [hcurB, hB]
      show LL.collect s2 (B2.length + 2 + 1) (some y.1) = B2.map Prod.snd
      rw [LL.collect, if_neg hyroot, hval2, hnext2]
      show LL.collect s2 (B2.length + 2) (some (chainCursor s B2)) =
        B2.map Prod.snd
      rw [List.append_nil] at hseg2
      obtain ⟨q'', d'', hsA'', hsB''⟩ :=
        (seg_append A B2 s.root n2 last2 s.root).mp hseg2
      rw [← hroot2] at hsB''
      have hcur2 : chainCursor s2 B2 = d'' :=
        chainCursor_eq_of_seg s2 B2 q'' d'' last2 hsB''
      have hcurS : chainCursor s B2 = d'' := by
        rw [← hcur2]
        exact (chainCursor_root_eq s s2 hroot2 B2).symm
      have hrootB2 : s2.root ∉ B2.map Prod.fst := by
        rw [hroot2]
        intro hm
        apply (List.nodup_cons.mp hndh).1
        rw [List.map_append]
        refine List.mem_append_right _ ?_
        rw [hB, List.map_cons]
        exact List.mem_cons_of_mem _ hm
      rw [hcurS]
      exact collect_of_seg s2 B2 q'' d'' last2 (B2.length + 2) hsB'' hrootB2
        (by omega)
    · have hcurB : chainCursor s B = chainCursor s B1 := by
        rw [hB]
        exact chainCursor_append_ne s B1 (y :: B2) hB1e
      rw [List.append_assoc] at hseg2
      obtain ⟨q'', d'', hsA'', hsB''⟩ :=
        (seg_append A (B1 ++ B2) s.root n2 last2 s.root).mp hseg2
      rw [← hroot2] at hsB''
      have hcur2 : chainCursor s2 (B1 ++ B2) = d'' :=
        chainCursor_eq_of_seg s2 (B1 ++ B2) q'' d'' last2 hsB''
      have hcurS : chainCursor s B = d'' := by
        rw [hcurB]
        rw [chainCursor_append_ne s2 B1 B2 hB1e] at hcur2
        rw [chainCursor_root_eq s s2 hroot2 B1] at hcur2
        exact hcur2
      have hrootB12 : s2.root ∉ (B1 ++ B2).map Prod.fst := by
        rw [hroot2]
        intro hm
        apply (List.nodup_cons.mp hndh).1
        rw [List.map_append]
        refine List.mem_append_right _ ?_
        rw [hB, List.map_append, List.map_cons]
        rw [List.map_append] at hm
        rcases List.mem_append.mp hm with h1 | h2
        · exact List.mem_append_left _ h1
        · exact List.mem_append_right _ (List.mem_cons_of_mem _ h2)
      have hfuel : (B1 ++ B2).length < B.length + 2 := by
        rw [hB]
        simp only [List.length_append, List.length_cons]
        omega
      have hcoll := collect_of_seg s2 (B1 ++ B2) q'' d'' last2 (B.length + 2)
        hsB'' hrootB12 hfuel
      rw [hcurS, hcoll, List.map_append]
  have hpart3b : ∀ A1 y A2, A = A1 ++ y :: A2 →
      (LL.erase s y.1).1 = some y.2 ∧
        LL.collect (LL.erase s y.1).2 (B.length + 2)
          (some (chainCursor s B)) = B.map Prod.snd := by
    intro A1 y A2 hA
    have h' : RepLL s (A1 ++ y :: (A2 ++ B)) := by
      have he : A ++ B = A1 ++ y :: (A2 ++ B) := by
        rw [hA]
        simp
      rw [← he]
      exact h
    obtain ⟨s2, herase, hroot2, hval2, hnext2, n2, last2, hseg2⟩ :=
      erase_chain s A1 (A2 ++ B) y h'
    refine ⟨by rw [herase], ?_⟩
    rw [herase]
    rw [← List.append_assoc] at hseg2
    obtain ⟨q'', d'', hsA'', hsB''⟩ :=
      (seg_append (A1 ++ A2) B s.root n2 last2 s.root).mp hseg2
    rw [← hroot2] at hsB''
    have hcur2 : chainCursor s2 B = d'' :=
      chainCursor_eq_of_seg s2 B q'' d'' last2 hsB''
    have hcurS : chainCursor s B = d'' := by
      rw [← hcur2]
      exact (chainCursor_root_eq s s2 hroot2 B).symm
    have hrootB : s2.root ∉ B.map Prod.fst := by
      rw [hroot2]
      intro hm
      apply (List.nodup_cons.mp hndh).1
      rw [List.map_append]
      exact List.mem_append_right _ hm
    rw [hcurS]
    exact collect_of_seg s2 B q'' d'' last2 (B.length + 2) hsB'' hrootB
      (by omega)
  exact ⟨hbase, hpart1, hpart2a, hpart2b, hpart3a, hpart3b⟩

/-- Witness: the traversal claim applied to a concrete three-element list
(ids 1, 2, 3 with values 10, 20, 30 around sentinel 0), with the cursor
parked after the first element; the representation hypothesis is discharged
by the executable invariant check. -/
theorem claim2_witness :
    RepLL
      (⟨fun j => if j = 0 then ⟨some 3, some 1, none⟩
          else if j = 1 then ⟨some 0, some 2, some 10⟩
          else if j = 2 then ⟨some 1, some 3, some 20⟩
          else if j = 3 then ⟨some 2, some 0, some 30⟩
          else Cell.empty, 4, 0, 3⟩ : LL Nat)
      ([(1, 10)] ++ [(2, 20), (3, 30)]) ∧
    LL.collect
      (⟨fun j => if j = 0 then ⟨some 3, some 1, none⟩
          else if j = 1 then ⟨some 0, some 2, some 10⟩
          else if j = 2 then ⟨some 1, some 3, some 20⟩
          else if j = 3 then ⟨some 2, some 0, some 30⟩
          else Cell.empty, 4, 0, 3⟩ : LL Nat)
      ([(2, 20), (3, 30)].length + 1)
      (some (chainCursor
        (⟨fun j => if j = 0 then ⟨some 3, some 1, none⟩
            else if j = 1 then ⟨some 0, some 2, some 10⟩
            else if j = 2 then ⟨some 1, some 3, some 20⟩
            else if j = 3 then ⟨some 2, some 0, some 30⟩
            else Cell.empty, 4, 0, 3⟩ : LL Nat)
        [(2, 20), (3, 30)])) = [(2, 20), (3, 30)].map Prod.snd :=
  ⟨repChk_sound _ _ (by decide),
   (claim2_traversal _ [(1, 10)] [(2, 20), (3, 30)] 99
     (repChk_sound _ _ (by decide))).1⟩
